import Mathlib

/-
Verification of the file-backed REST storage handler (src/filestore.go).

Modelling conventions:
  * Record ids (Go `interface{}` keys) are modelled by `Nat`, payload field
    values by `Int`, version tags (`ETag`) by `Nat`.
  * A stored serialized record (`[]byte` produced by gob) is modelled by the
    `Item` it decodes to: gob round-trips losslessly, and `serialize`/`fetch`
    in the source are exact inverses for the values stored here.
  * The Go map `self.items : map[interface{}][]byte` is modelled by an
    association list with pairwise distinct keys.  Go map iteration order is
    unspecified and varies between iterations, so every place the source
    iterates the map (`readDatafile`, filestore.go:88-91) takes an explicit
    iteration-order oracle `σ : ItemMap → List Nat`; an oracle is admissible
    (`validIter`) when it always yields a permutation of the keys.
  * The reader/writer lock is not modelled: the embedding is the
    single-threaded semantics each operation has while holding the lock.
-/

namespace Filestore

/-- A payload field value (payload values are arbitrary `interface{}` data in the
source; modelled as integers, which are enough for equality and ordering). -/
abbrev Value := Int

/-- A record payload: the open field-to-value mapping `item.Payload`. -/
abbrev Payload := List (String × Value)

/-- Go map read `payload[field]`: first binding wins, `none` for a missing
field (Go yields the zero value `nil`). -/
def payloadGet (p : Payload) (f : String) : Option Value :=
  match p with
  | [] => none
  | (g, v) :: rest => if g = f then some v else payloadGet rest f

/-- Source `resource.Item`: id, version tag (`ETag`) and payload. -/
structure Item where
  id : Nat
  etag : Nat
  payload : Payload
deriving DecidableEq, Repr

/-- The in-memory table map `self.items`, as an association list with
pairwise distinct keys (a Go map, with the stored bytes decoded). -/
abbrev ItemMap := List (Nat × Item)

/-- Go map read `m[k]`. -/
def mapLookup (m : ItemMap) (k : Nat) : Option Item :=
  match m with
  | [] => none
  | (q, v) :: rest => if q = k then some v else mapLookup rest k

/-- Go map write `m[k] = v`: overwrite the existing entry or add a new one. -/
def mapInsert (m : ItemMap) (k : Nat) (v : Item) : ItemMap :=
  match m with
  | [] => [(k, v)]
  | (q, w) :: rest => if q = k then (k, v) :: rest else (q, w) :: mapInsert rest k v

/-- Go map delete `delete(m, k)` (filestore.go:157). -/
def mapErase (m : ItemMap) (k : Nat) : ItemMap :=
  match m with
  | [] => []
  | (q, w) :: rest => if q = k then rest else (q, w) :: mapErase rest k

/-- The key set of the map. -/
def keys (m : ItemMap) : List Nat := m.map Prod.fst

/-- An iteration order for a Go map: given the map, the order in which
`for k, v := range items` visits the keys (filestore.go:88). -/
abbrev IterOrder := ItemMap → List Nat

/-- An iteration-order oracle is admissible when it enumerates exactly the
keys of the map, in some order. -/
def validIter (σ : IterOrder) : Prop :=
  ∀ m, List.Perm (σ m) (keys m)

/-- Source `FileStoreHandler` (filestore.go:19-30): artificial latency, the id→record
map, the insertion-order id slice, the configured unique fields, and the
durable location (`database_file`), `none` when the file does not exist. -/
structure Handler where
  latency : Nat
  items : ItemMap
  ids : List Nat
  uniqueFields : List String
  datafile : Option ItemMap
deriving DecidableEq, Repr

/-- Source `saveDatafile` (filestore.go:95-111): gob-encode `self.items` (only the
map — the `ids` slice is not written) and overwrite the durable location. -/
def saveDatafile (h : Handler) : Handler :=
  { h with datafile := some h.items }

/-- Source `readDatafile` (filestore.go:61-93): if the file does not exist, return
leaving the state untouched; otherwise decode the map, replace `self.items`
with it, and rebuild `self.ids` from a map iteration (`for k, v := range`),
whose order is the choice of the oracle. -/
def readDatafile (σ : IterOrder) (h : Handler) : Handler :=
  match h.datafile with
  | none => h
  | some m => { h with items := m, ids := σ m }

/-- Source `persistData` (filestore.go:113-116): save then reload. -/
def persistData (σ : IterOrder) (h : Handler) : Handler :=
  readDatafile σ (saveDatafile h)

/-- Source `store` (filestore.go:119-130): serialize the item, store it under
`item.ID`, then run the persistence cycle. -/
def store (σ : IterOrder) (h : Handler) (it : Item) : Handler :=
  persistData σ { h with items := mapInsert h.items it.id it }

/-- Source `fetch` (filestore.go:142-153): decode the stored bytes for `id`. -/
def fetch (h : Handler) (id : Nat) : Option Item :=
  mapLookup h.items id

/-- The id-removal loop of `delete` (filestore.go:159-168): drop the first
occurrence of `id` from the order slice, keeping the rest in order. -/
def removeId (l : List Nat) (id : Nat) : List Nat :=
  match l with
  | [] => []
  | x :: rest => if x = id then rest else x :: removeId rest id

/-- Source `delete` (filestore.go:156-170): remove the map entry and the id from the
order slice, then run the persistence cycle. -/
def deleteOne (σ : IterOrder) (h : Handler) (id : Nat) : Handler :=
  persistData σ { h with items := mapErase h.items id, ids := removeId h.ids id }

/-- The error values surfaced by the handler: `resource.ErrConflict`,
`resource.ErrNotFound`, the `rest.Error` 422 naming the violated unique field
(filestore.go:194), context cancellation, and a Go slice-bounds runtime fault
(filestore.go:319), modelled as an error so the embedding stays total. -/
inductive StoreError where
  | conflict
  | notFound
  | uniqueViolation (field : String)
  | canceled
  | sliceBounds
deriving DecidableEq, Repr

/-- The ambient `context.Context`, reduced to the one observable the engine
consults: whether it is cancelled while the operation waits. -/
structure Ctx where
  canceled : Bool
deriving DecidableEq, Repr

/-- A context that is never cancelled. -/
def okCtx : Ctx := ⟨false⟩

/-- Modelled from the spec: `handleWithLatency` is called at every entry point
(filestore.go:176, 216, 239, 260, 288) but its definition is not among the
provided sources.  Per §4.5 of the spec, with a configured delay the
operation waits and aborts with a cancellation error if the ambient context
ends during the delay; with no delay it runs directly.  This predicate is
true exactly when the wrapped body must be skipped with a cancellation
error. -/
def latencyCancels (latency : Nat) (ctx : Ctx) : Bool :=
  latency != 0 && ctx.canceled

/-- Source `resource.ItemList{total, page, items}` (filestore.go:319). -/
structure ItemList where
  total : Int
  page : Int
  items : List Item
deriving DecidableEq, Repr

/-- Go slice expression `l[start:stop]`: defined when
`0 ≤ start ≤ stop ≤ len l`, otherwise a runtime bounds fault (`none`). -/
def goSlice (l : List Item) (start stop : Int) : Option (List Item) :=
  if 0 ≤ start ∧ start ≤ stop ∧ stop ≤ (l.length : Int) then
    some ((l.drop start.toNat).take (stop - start).toNat)
  else none

/-- Integer comparison, the base of the sort comparator. -/
def icmp (x y : Int) : Ordering :=
  if x < y then .lt else if y < x then .gt else .eq

/-- Comparison of possibly-missing field values (a missing field sorts before
any present value). -/
def vcmp (a b : Option Int) : Ordering :=
  match a, b with
  | none, none => .eq
  | none, some _ => .lt
  | some _, none => .gt
  | some x, some y => icmp x y

/-- Modelled from the spec: a sort specification is an ordered list of
(field, ascending) pairs (§6, sort-order capability). -/
abbrev SortSpec := List (String × Bool)

/-- One sort key applied to two records: ascending compares the two field
values, descending compares them flipped. -/
def fieldCmp (f : String) (asc : Bool) (a b : Item) : Ordering :=
  if asc then vcmp (payloadGet a.payload f) (payloadGet b.payload f)
  else vcmp (payloadGet b.payload f) (payloadGet a.payload f)

/-- Modelled from the spec: the multi-key comparator of `sortableItems.Less`
(referenced at filestore.go:303 but not among the provided sources): compare
field by field in specification order, direction per field, later fields
breaking ties (§4.2 step 2, §6). -/
def itemCmp (s : SortSpec) (a b : Item) : Ordering :=
  match s with
  | [] => .eq
  | (f, asc) :: rest =>
    match fieldCmp f asc a b with
    | .eq => itemCmp rest a b
    | o => o

/-- The strict comparator handed to the sorting routine. -/
def itemLt (s : SortSpec) (a b : Item) : Bool :=
  itemCmp s a b == .lt

/-- A sorting routine: what `sort.Sort` (filestore.go:304) is given — a
comparator and the slice to reorder in place. -/
abbrev Sorter := (Item → Item → Bool) → List Item → List Item

/-- The contract Go documents for `sort.Sort`, at the comparators the source
actually uses: the output is a permutation of the input that is pairwise
non-descending for the comparator.  `sort.Sort` is documented as NOT
guaranteed to be stable. -/
def validSorter (g : Sorter) : Prop :=
  ∀ (s : SortSpec) (l : List Item),
    List.Perm (g (itemLt s) l) l ∧
    List.Pairwise (fun a b => itemLt s b a = false) (g (itemLt s) l)

/-- A trivial sorter, used where the sort branch is dead (empty sort spec). -/
def gid : Sorter := fun _ l => l

/-- The filter loop of `findNoLock` (filestore.go:290-300): walk the order
slice, fetch each record and retain those whose payload matches, preserving
the order of `ids`.  At filestore.go:292 the found flag of `fetch` is
discarded, so a missing id would be a nil dereference in Go; that case is
unreachable while `ids` only lists keys of `items` and is modelled by
skipping the id. -/
def matchStep (h : Handler) (pred : Payload → Bool) (id : Nat) : Option Item :=
  match fetch h id with
  | some it => if pred it.payload then some it else none
  | none => none

/-- The retained matches, in order-slice order. -/
def matchedOf (h : Handler) (pred : Payload → Bool) : List Item :=
  h.ids.filterMap (matchStep h pred)

/-- The sort step of `findNoLock` (filestore.go:301-305): when the lookup has
a non-empty sort specification, reorder the retained matches with `sort.Sort`
(the sorter `g`); otherwise leave them in iteration (order-slice) order. -/
def sortedOf (g : Sorter) (h : Handler) (pred : Payload → Bool)
    (s : SortSpec) : List Item :=
  if s.length > 0 then g (itemLt s) (matchedOf h pred) else matchedOf h pred

/-- The pagination index computation of `findNoLock` (filestore.go:306-318):
`start := (page-1)*perPage`; with `perPage > 0`, `end := start+perPage`,
clamped to `(0, 0)` when `start > total-1` and to `total` when
`end > total-1`; with `perPage ≤ 0` the slice is `(start, total)`. -/
def sliceRange (total page perPage : Int) : Int × Int :=
  if perPage > 0 then
    if (page - 1) * perPage > total - 1 then (0, 0)
    else if (page - 1) * perPage + perPage > total - 1 then
      ((page - 1) * perPage, total)
    else ((page - 1) * perPage, (page - 1) * perPage + perPage)
  else ((page - 1) * perPage, total)

/-- Source `findNoLock` (filestore.go:287-323).  `g` stands for `sort.Sort` over
`sortableItems`, `pred` for the external `lookup.Filter().Match` applied to a
payload.  A slice-bounds fault at filestore.go:319 is `.error .sliceBounds`. -/
def findNoLock (g : Sorter) (h : Handler) (ctx : Ctx) (pred : Payload → Bool)
    (s : SortSpec) (page perPage : Int) : Except StoreError ItemList :=
  if latencyCancels h.latency ctx then .error .canceled else
  match goSlice (sortedOf g h pred s)
      (sliceRange ((sortedOf g h pred s).length : Int) page perPage).1
      (sliceRange ((sortedOf g h pred s).length : Int) page perPage).2 with
  | some pageItems => .ok ⟨((sortedOf g h pred s).length : Int), page, pageItems⟩
  | none => .error .sliceBounds

/-- Source `Find` (filestore.go:281-285): take the read lock and run `findNoLock`. -/
def Find (g : Sorter) (h : Handler) (ctx : Ctx) (pred : Payload → Bool)
    (s : SortSpec) (page perPage : Int) : Except StoreError ItemList :=
  findNoLock g h ctx pred s page perPage

/-- Modelled from the spec: the external predicate capability for the query
`schema.Equal{Field: f, Value: v}` built by `Insert` (filestore.go:186) —
the record payloads whose value at `f` equals `v` (§4.1: a predicate
"field == value"). -/
def eqFilter (f : String) (v : Option Value) : Payload → Bool :=
  fun p => payloadGet p f == v

/-- The uniqueness loop of `Insert` (filestore.go:183-196): for each
configured unique field, query the current table for records sharing the
candidate value via `findNoLock` with a fresh lookup (no sort), page 1 and
perPage -1, and fail naming the field if any match exists. -/
def checkUnique (g : Sorter) (h : Handler) (ctx : Ctx) (it : Item) :
    List String → Option StoreError
  | [] => none
  | f :: rest =>
    match findNoLock g h ctx (eqFilter f (payloadGet it.payload f)) [] 1 (-1) with
    | .error e => some e
    | .ok res =>
      if res.items.length > 0 then some (.uniqueViolation f)
      else checkUnique g h ctx it rest

/-- The validation loop of `Insert` (filestore.go:178-198): for each item of
the batch, in order, fail with `conflict` if its id is already a key of the
table, then run the uniqueness checks.  No state is modified. -/
def insCheck (g : Sorter) (h : Handler) (ctx : Ctx) : List Item → Option StoreError
  | [] => none
  | it :: rest =>
    if (fetch h it.id).isSome then some .conflict
    else
      match checkUnique g h ctx it h.uniqueFields with
      | some e => some e
      | none => insCheck g h ctx rest

/-- The storage loop of `Insert` (filestore.go:199-206): append each id to the
order slice, then `store` the item (which runs the persistence cycle). -/
def insStore (σ : IterOrder) (h : Handler) : List Item → Handler
  | [] => h
  | it :: rest => insStore σ (store σ { h with ids := h.ids ++ [it.id] } it) rest

/-- Source `Insert` (filestore.go:173-210). -/
def Insert (σ : IterOrder) (g : Sorter) (ctx : Ctx) (h : Handler)
    (batch : List Item) : Handler × Option StoreError :=
  if latencyCancels h.latency ctx then (h, some .canceled) else
  match insCheck g h ctx batch with
  | some e => (h, some e)
  | none => (insStore σ h batch, none)

/-- Source `Update` (filestore.go:213-233): fetch the record stored under
`original.ID`; `notFound` if absent, `conflict` on a version-tag mismatch,
otherwise `store` the new item (under `item.ID`). -/
def Update (σ : IterOrder) (ctx : Ctx) (h : Handler) (item original : Item) :
    Handler × Option StoreError :=
  if latencyCancels h.latency ctx then (h, some .canceled) else
  match fetch h original.id with
  | none => (h, some .notFound)
  | some o =>
    if original.etag != o.etag then (h, some .conflict)
    else (store σ h item, none)

/-- Source `Delete` (filestore.go:236-254): fetch the record stored under `item.ID`;
`notFound` if absent, `conflict` on a version-tag mismatch, otherwise remove
it through `delete`. -/
def Delete (σ : IterOrder) (ctx : Ctx) (h : Handler) (item : Item) :
    Handler × Option StoreError :=
  if latencyCancels h.latency ctx then (h, some .canceled) else
  match fetch h item.id with
  | none => (h, some .notFound)
  | some o =>
    if item.etag != o.etag then (h, some .conflict)
    else (deleteOne σ h item.id, none)

/-- The deletion loop of `Clear` (filestore.go:263-273), iterating the copy of
the id slice taken at filestore.go:261-262.  The found flag of `fetch` is
discarded in the source, so a missing id would be a nil dereference;
unreachable while the iterated ids are keys of `items`, modelled by skipping
the id. -/
def clearLoop (σ : IterOrder) (pred : Payload → Bool) :
    List Nat → Handler → Handler × Nat
  | [], h => (h, 0)
  | id :: rest, h =>
    match fetch h id with
    | none => clearLoop σ pred rest h
    | some it =>
      if pred it.payload then
        let r := clearLoop σ pred rest (deleteOne σ h it.id)
        (r.1, r.2 + 1)
      else clearLoop σ pred rest h

/-- Source `Clear` (filestore.go:257-278).  Note the trailing `self.persistData()`
at filestore.go:276 runs unconditionally — also when the latency wrapper
aborted with a cancellation error. -/
def Clear (σ : IterOrder) (ctx : Ctx) (h : Handler) (pred : Payload → Bool) :
    Handler × Nat × Option StoreError :=
  if latencyCancels h.latency ctx then (persistData σ h, 0, some .canceled) else
  let r := clearLoop σ pred h.ids h
  (persistData σ r.1, r.2, none)

/-- The table invariant (§3, Record Table): map keys are pairwise distinct and
the order slice enumerates exactly the key set. -/
def WF (h : Handler) : Prop :=
  (keys h.items).Nodup ∧ List.Perm h.ids (keys h.items)

instance (h : Handler) : Decidable (WF h) := by
  unfold WF
  exact instDecidableAnd

/-- The ids of `l` whose stored record has a payload that matches `pred` in `m` — the
records `Clear` deletes when iterating the copy `l` of the order slice. -/
def matchingIds (m : ItemMap) (pred : Payload → Bool) (l : List Nat) : List Nat :=
  l.filter (fun id =>
    match mapLookup m id with
    | some it => pred it.payload
    | none => false)

/-- Erase a list of keys from the map, one `delete` at a time. -/
def eraseIds (m : ItemMap) (ids : List Nat) : ItemMap :=
  ids.foldl mapErase m

/-- A concrete admissible iteration order: representation order of the keys. -/
def iterA : IterOrder := fun m => keys m

/-- A concrete admissible iteration order: reversed representation order.  Go
map iteration order is unspecified, so both are realizable. -/
def iterB : IterOrder := fun m => (keys m).reverse

/-- The freshly opened empty handler (`NewHandler` with no datafile). -/
def emptyH : Handler := ⟨0, [], [], [], none⟩

instance : DecidableEq (Except StoreError ItemList) := fun x y =>
  match x, y with
  | .ok a, .ok b =>
    if h : a = b then isTrue (by rw [h]) else isFalse (fun hc => h (Except.ok.inj hc))
  | .error a, .error b =>
    if h : a = b then isTrue (by rw [h]) else isFalse (fun hc => h (Except.error.inj hc))
  | .ok _, .error _ => isFalse (fun hc => Except.noConfusion hc)
  | .error _, .ok _ => isFalse (fun hc => Except.noConfusion hc)
/-! ### Concrete fixtures used by the counterexample and evaluation theorems -/

def w1 : Item := ⟨1, 1, [("a", 1)]⟩

def w2 : Item := ⟨2, 1, [("a", 2)]⟩

def wC : Item := ⟨3, 1, [("a", 3)]⟩

/-- Two stored records sharing the value `7` on the unique field `u`. -/
def e1 : Item := ⟨1, 1, [("u", 7)]⟩

def e2 : Item := ⟨2, 1, [("u", 7)]⟩

def h5 : Handler := ⟨0, [(1, e1), (2, e2)], [1, 2], ["u"], none⟩

def cand5 : Item := ⟨3, 1, [("u", 7)]⟩

def h7 : Handler := ⟨0, [(1, e1), (2, e2)], [1, 2], [], none⟩

def h9 : Handler := ⟨1, [(1, e1), (2, e2)], [1, 2], [], none⟩

def o1 : Item := ⟨1, 1, [("a", 1)]⟩

def o2 : Item := ⟨2, 1, [("a", 2)]⟩

def h4 : Handler := ⟨0, [(1, o1), (2, o2)], [1, 2], [], none⟩

/-- A replacement for `o1`: same id, new tag and payload. -/
def n1 : Item := ⟨1, 9, [("a", 5)]⟩

/-- A replacement for `o1` under a different id (for C10). -/
def n3 : Item := ⟨3, 9, [("a", 5)]⟩

/-- Two records with the same id in one batch (for C3). -/
def dupX : Item := ⟨1, 1, [("a", 1)]⟩

def dupY : Item := ⟨1, 2, [("a", 2)]⟩

def insC1 : Handler × Option StoreError := Insert iterA gid okCtx emptyH [w1, w2]

/-- A fresh handler opened over the durable location `insC1` left behind
(`NewHandler` reads the datafile with a fresh map iteration). -/
def freshC1 : Handler := readDatafile iterB { emptyH with datafile := insC1.1.datafile }

def insC2 : Handler × Option StoreError := Insert iterB gid okCtx emptyH [w1, w2, wC]

def delC2 : Handler × Option StoreError := Delete iterB okCtx insC2.1 w2

def insDup : Handler × Option StoreError := Insert iterA gid okCtx emptyH [dupX, dupY]

def insRev : Handler × Option StoreError := Insert iterB gid okCtx emptyH [w1, w2]

def updC4 : Handler × Option StoreError := Update iterB okCtx h4 n1 o1

def clrC9 : Handler × Nat × Option StoreError := Clear iterB ⟨true⟩ h9 (fun _ => true)

/-- A stable sorter obeying the `sort.Sort` contract: insertion sort on the
non-strict relation induced by the comparator. -/
def stdSorter : Sorter := fun lt l =>
  List.insertionSort (fun a b => lt b a = false) l

/-- Two records with distinct ids and tags but identical payloads: tied under
every sort specification. -/
def iA : Item := ⟨1, 1, [("f", 5)]⟩

def iB : Item := ⟨2, 2, [("f", 5)]⟩

def hC6 : Handler := ⟨0, [(1, iA), (2, iB)], [1, 2], [], none⟩

/-- A sorter obeying the documented `sort.Sort` contract that, on the tied
input `[iA, iB]`, returns the ties in the opposite of their input order — as
an unstable sort may.  Elsewhere it behaves as `stdSorter`. -/
def badSorter : Sorter := fun lt l =>
  if l = [iA, iB] then [iB, iA] else stdSorter lt l

/-! ### Admissibility of the concrete iteration orders -/

theorem validIter_iterA : validIter iterA := fun _ => List.Perm.refl _

theorem validIter_iterB : validIter iterB := fun m => (keys m).reverse_perm

/-! ### Association-list map lemmas -/

theorem mapLookup_mapInsert_self (m : ItemMap) (k : Nat) (v : Item) :
    mapLookup (mapInsert m k v) k = some v := by
  induction m with
  | nil => simp [mapInsert, mapLookup]
  | cons p rest ih =>
    obtain ⟨q, w⟩ := p
    by_cases h : q = k
    · subst h; simp [mapInsert, mapLookup]
    · simp [mapInsert, mapLookup, h, ih]

theorem mapLookup_mapInsert_ne (m : ItemMap) (k : Nat) (v : Item) (q : Nat)
    (h : q ≠ k) : mapLookup (mapInsert m k v) q = mapLookup m q := by
  have hkq : k ≠ q := Ne.symm h
  induction m with
  | nil => simp [mapInsert, mapLookup, hkq]
  | cons p rest ih =>
    obtain ⟨a, b⟩ := p
    by_cases ha : a = k
    · subst ha; simp [mapInsert, mapLookup, hkq]
    · simp only [mapInsert, if_neg ha, mapLookup]
      by_cases hq : a = q
      · simp [hq]
      · simp [hq, ih]

theorem keys_cons (a : Nat) (b : Item) (rest : ItemMap) :
    keys ((a, b) :: rest) = a :: keys rest := rfl

theorem mapLookup_eq_none_iff (m : ItemMap) (k : Nat) :
    mapLookup m k = none ↔ k ∉ keys m := by
  induction m with
  | nil => simp [mapLookup, keys]
  | cons p rest ih =>
    obtain ⟨a, b⟩ := p
    rw [keys_cons]
    by_cases ha : a = k
    · subst ha; simp [mapLookup]
    · simp [mapLookup, ha, ih, List.mem_cons, Ne.symm ha]

theorem mapLookup_isSome_iff (m : ItemMap) (k : Nat) :
    (mapLookup m k).isSome = true ↔ k ∈ keys m := by
  rcases hm : mapLookup m k with _ | v
  · simpa using (mapLookup_eq_none_iff m k).mp hm
  · simp only [Option.isSome_some, true_iff]
    by_contra hk
    rw [← mapLookup_eq_none_iff m k] at hk
    rw [hm] at hk
    cases hk

theorem keys_mapInsert_mem (m : ItemMap) (k : Nat) (v : Item) (h : k ∈ keys m) :
    keys (mapInsert m k v) = keys m := by
  induction m with
  | nil => cases h
  | cons p rest ih =>
    obtain ⟨a, b⟩ := p
    by_cases ha : a = k
    · subst ha; simp [mapInsert, keys_cons]
    · rw [keys_cons] at h
      rcases List.mem_cons.mp h with hh | hh
      · exact absurd hh.symm ha
      · simp [mapInsert, ha, keys_cons, ih hh]

theorem keys_mapInsert_not_mem (m : ItemMap) (k : Nat) (v : Item)
    (h : k ∉ keys m) : keys (mapInsert m k v) = keys m ++ [k] := by
  induction m with
  | nil => simp [mapInsert, keys]
  | cons p rest ih =>
    obtain ⟨a, b⟩ := p
    rw [keys_cons] at h
    simp only [List.mem_cons, not_or] at h
    have ha : a ≠ k := Ne.symm h.1
    simp [mapInsert, ha, keys_cons, ih h.2]

theorem nodup_keys_mapInsert (m : ItemMap) (k : Nat) (v : Item)
    (h : (keys m).Nodup) : (keys (mapInsert m k v)).Nodup := by
  by_cases hk : k ∈ keys m
  · rwa [keys_mapInsert_mem m k v hk]
  · rw [keys_mapInsert_not_mem m k v hk, List.nodup_append]
    exact ⟨h, List.nodup_singleton k,
      fun a ha hb => hk ((List.mem_singleton.mp hb) ▸ ha)⟩

theorem length_mapInsert_not_mem (m : ItemMap) (k : Nat) (v : Item)
    (h : k ∉ keys m) : (mapInsert m k v).length = m.length + 1 := by
  have hlen : (keys (mapInsert m k v)).length = (keys m ++ [k]).length := by
    rw [keys_mapInsert_not_mem m k v h]
  simpa [keys] using hlen

theorem mapLookup_mem (m : ItemMap) (k : Nat) (v : Item)
    (h : mapLookup m k = some v) : (k, v) ∈ m := by
  induction m with
  | nil => cases h
  | cons p rest ih =>
    obtain ⟨a, b⟩ := p
    by_cases ha : a = k
    · subst ha
      have hb : b = v := by simpa [mapLookup] using h
      subst hb
      exact List.mem_cons_self _ _
    · simp only [mapLookup, if_neg ha] at h
      exact List.mem_cons_of_mem _ (ih h)

theorem mem_mapLookup (m : ItemMap) (k : Nat) (v : Item)
    (hnd : (keys m).Nodup) (h : (k, v) ∈ m) : mapLookup m k = some v := by
  induction m with
  | nil => cases h
  | cons p rest ih =>
    obtain ⟨a, b⟩ := p
    rw [keys_cons, List.nodup_cons] at hnd
    rcases List.mem_cons.mp h with hh | hh
    · injection hh with h1 h2
      subst h1; subst h2
      simp [mapLookup]
    · have ha : a ≠ k := by
        rintro rfl
        exact hnd.1 (List.mem_map_of_mem Prod.fst hh)
      simp [mapLookup, ha, ih hnd.2 hh]

theorem mapLookup_mapErase_ne (m : ItemMap) (k q : Nat) (h : q ≠ k) :
    mapLookup (mapErase m k) q = mapLookup m q := by
  induction m with
  | nil => simp [mapErase]
  | cons p rest ih =>
    obtain ⟨a, b⟩ := p
    by_cases ha : a = k
    · subst ha
      simp [mapErase, mapLookup, Ne.symm h]
    · simp only [mapErase, if_neg ha, mapLookup]
      by_cases hq : a = q
      · simp [hq]
      · simp [hq, ih]

theorem mem_keys_mapErase (m : ItemMap) (k x : Nat)
    (h : x ∈ keys (mapErase m k)) : x ∈ keys m := by
  induction m with
  | nil => simpa [mapErase] using h
  | cons p rest ih =>
    obtain ⟨a, b⟩ := p
    by_cases ha : a = k
    · subst ha
      simp only [mapErase, if_pos rfl] at h
      exact (keys_cons a b rest) ▸ List.mem_cons_of_mem _ h
    · simp only [mapErase, if_neg ha, keys_cons] at h ⊢
      rcases List.mem_cons.mp h with hh | hh
      · exact List.mem_cons.mpr (Or.inl hh)
      · exact List.mem_cons.mpr (Or.inr (ih hh))

theorem nodup_keys_mapErase (m : ItemMap) (k : Nat)
    (hnd : (keys m).Nodup) : (keys (mapErase m k)).Nodup := by
  induction m with
  | nil => simp [mapErase, keys]
  | cons p rest ih =>
    obtain ⟨a, b⟩ := p
    rw [keys_cons, List.nodup_cons] at hnd
    by_cases ha : a = k
    · subst ha
      simpa [mapErase] using hnd.2
    · simp only [mapErase, if_neg ha, keys_cons, List.nodup_cons]
      exact ⟨fun hc => hnd.1 (mem_keys_mapErase rest k a hc), ih hnd.2⟩

theorem not_mem_keys_mapErase_self (m : ItemMap) (k : Nat)
    (hnd : (keys m).Nodup) : k ∉ keys (mapErase m k) := by
  induction m with
  | nil => simp [mapErase, keys]
  | cons p rest ih =>
    obtain ⟨a, b⟩ := p
    rw [keys_cons, List.nodup_cons] at hnd
    by_cases ha : a = k
    · subst ha
      simpa [mapErase] using hnd.1
    · simp only [mapErase, if_neg ha, keys_cons, List.mem_cons, not_or]
      exact ⟨fun hc => ha hc.symm, ih hnd.2⟩

theorem mapLookup_mapErase_self (m : ItemMap) (k : Nat)
    (hnd : (keys m).Nodup) : mapLookup (mapErase m k) k = none :=
  (mapLookup_eq_none_iff _ _).mpr (not_mem_keys_mapErase_self m k hnd)

theorem filter_bne_of_not_mem (m : ItemMap) (k : Nat) (h : k ∉ keys m) :
    m.filter (fun p => p.1 != k) = m := by
  induction m with
  | nil => rfl
  | cons p rest ih =>
    obtain ⟨a, b⟩ := p
    rw [keys_cons] at h
    simp only [List.mem_cons, not_or] at h
    have ha : a ≠ k := Ne.symm h.1
    simp [List.filter_cons, ha, ih h.2]

theorem mapErase_eq_filter (m : ItemMap) (k : Nat) (hnd : (keys m).Nodup) :
    mapErase m k = m.filter (fun p => p.1 != k) := by
  induction m with
  | nil => rfl
  | cons p rest ih =>
    obtain ⟨a, b⟩ := p
    rw [keys_cons, List.nodup_cons] at hnd
    by_cases ha : a = k
    · subst ha
      simp [mapErase, List.filter_cons, filter_bne_of_not_mem rest a hnd.1]
    · simp [mapErase, ha, List.filter_cons, ih hnd.2]

theorem mapLookup_filterMap_keys (m : ItemMap) (hnd : (keys m).Nodup) :
    (keys m).filterMap (mapLookup m) = m.map Prod.snd := by
  induction m with
  | nil => simp [keys]
  | cons p rest ih =>
    obtain ⟨a, b⟩ := p
    rw [keys_cons, List.nodup_cons] at hnd
    rw [keys_cons]
    have hhead : mapLookup ((a, b) :: rest) a = some b := by simp [mapLookup]
    have htail : ∀ q ∈ keys rest, mapLookup ((a, b) :: rest) q = mapLookup rest q := by
      intro q hq
      have hq2 : a ≠ q := fun hc => hnd.1 (hc ▸ hq)
      simp [mapLookup, hq2]
    rw [List.filterMap_cons, hhead]
    simp only [List.map_cons]
    congr 1
    rw [List.filterMap_congr htail]
    exact ih hnd.2

/-! ### Shapes of the state after the persistence cycle -/

theorem persistData_eq (σ : IterOrder) (h : Handler) :
    persistData σ h = { h with datafile := some h.items, ids := σ h.items } := rfl

theorem store_eq (σ : IterOrder) (h : Handler) (it : Item) :
    store σ h it =
      { h with items := mapInsert h.items it.id it,
               datafile := some (mapInsert h.items it.id it),
               ids := σ (mapInsert h.items it.id it) } := rfl

theorem deleteOne_eq (σ : IterOrder) (h : Handler) (id : Nat) :
    deleteOne σ h id =
      { h with items := mapErase h.items id,
               datafile := some (mapErase h.items id),
               ids := σ (mapErase h.items id) } := rfl
/-! ### The sort comparator is a total preorder -/

theorem icmp_lt_iff (x y : Int) : icmp x y = .lt ↔ x < y := by
  unfold icmp
  split_ifs with h1 h2 <;> simp_all

theorem icmp_eq_iff (x y : Int) : icmp x y = .eq ↔ x = y := by
  unfold icmp
  split_ifs with h1 h2
  · constructor
    · intro hc; cases hc
    · intro hc; exfalso; omega
  · constructor
    · intro hc; cases hc
    · intro hc; exfalso; omega
  · constructor
    · intro hc; omega
    · intro hc; rfl

theorem icmp_swap (x y : Int) : icmp y x = (icmp x y).swap := by
  unfold icmp
  split_ifs <;> first | rfl | (exfalso; omega)

theorem vcmp_eq_iff (a b : Option Int) : vcmp a b = .eq ↔ a = b := by
  cases a <;> cases b <;> simp [vcmp, icmp_eq_iff]

theorem vcmp_swap (a b : Option Int) : vcmp b a = (vcmp a b).swap := by
  cases a <;> cases b
  · rfl
  · rfl
  · rfl
  · exact icmp_swap _ _

theorem vcmp_lt_trans {a b c : Option Int} (h1 : vcmp a b = .lt)
    (h2 : vcmp b c = .lt) : vcmp a c = .lt := by
  cases a <;> cases b <;> cases c <;>
    simp_all [vcmp, icmp_lt_iff] <;> omega

theorem fieldCmp_swap (f : String) (asc : Bool) (a b : Item) :
    fieldCmp f asc b a = (fieldCmp f asc a b).swap := by
  cases asc <;> simp only [fieldCmp, if_false, if_true, Bool.false_eq_true,
    if_neg Bool.false_ne_true] <;> exact vcmp_swap _ _

theorem fieldCmp_eq_iff (f : String) (asc : Bool) (a b : Item) :
    fieldCmp f asc a b = .eq ↔
      payloadGet a.payload f = payloadGet b.payload f := by
  cases asc
  · rw [show fieldCmp f false a b =
        vcmp (payloadGet b.payload f) (payloadGet a.payload f) from rfl,
      vcmp_eq_iff, eq_comm]
  · rw [show fieldCmp f true a b =
        vcmp (payloadGet a.payload f) (payloadGet b.payload f) from rfl,
      vcmp_eq_iff]

theorem fieldCmp_lt_trans (f : String) (asc : Bool) {a b c : Item}
    (h1 : fieldCmp f asc a b = .lt) (h2 : fieldCmp f asc b c = .lt) :
    fieldCmp f asc a c = .lt := by
  cases asc
  · exact vcmp_lt_trans h2 h1
  · exact vcmp_lt_trans h1 h2

theorem fieldCmp_congr_left (f : String) (asc : Bool) {a b : Item}
    (h : payloadGet a.payload f = payloadGet b.payload f) (c : Item) :
    fieldCmp f asc a c = fieldCmp f asc b c := by
  cases asc <;> unfold fieldCmp <;> rw [h]

theorem fieldCmp_congr_right (f : String) (asc : Bool) {b c : Item}
    (h : payloadGet b.payload f = payloadGet c.payload f) (a : Item) :
    fieldCmp f asc a b = fieldCmp f asc a c := by
  cases asc <;> unfold fieldCmp <;> rw [h]

theorem itemCmp_cons (f : String) (asc : Bool) (rest : SortSpec) (a b : Item) :
    itemCmp ((f, asc) :: rest) a b =
      match fieldCmp f asc a b with
      | .eq => itemCmp rest a b
      | o => o := rfl

theorem itemCmp_swap (s : SortSpec) (a b : Item) :
    itemCmp s b a = (itemCmp s a b).swap := by
  induction s with
  | nil => rfl
  | cons p rest ih =>
    obtain ⟨f, asc⟩ := p
    rw [itemCmp_cons, itemCmp_cons, fieldCmp_swap f asc a b]
    cases hc : fieldCmp f asc a b <;> simp [Ordering.swap, ih]

theorem itemCmp_eq_of_payload_eq (s : SortSpec) {a b : Item}
    (h : a.payload = b.payload) : itemCmp s a b = .eq := by
  induction s with
  | nil => rfl
  | cons p rest ih =>
    obtain ⟨f, asc⟩ := p
    have hf : fieldCmp f asc a b = .eq := (fieldCmp_eq_iff f asc a b).mpr (by rw [h])
    rw [itemCmp_cons, hf]
    exact ih

theorem itemCmp_ngt_trans (s : SortSpec) :
    ∀ {a b c : Item}, itemCmp s a b ≠ .gt → itemCmp s b c ≠ .gt →
      itemCmp s a c ≠ .gt := by
  induction s with
  | nil => intro a b c h1 h2; simp [itemCmp]
  | cons p rest ih =>
    obtain ⟨f, asc⟩ := p
    intro a b c h1 h2
    rw [itemCmp_cons] at h1 h2 ⊢
    cases hab : fieldCmp f asc a b <;> rw [hab] at h1 <;>
      cases hbc : fieldCmp f asc b c <;> rw [hbc] at h2
    · rw [fieldCmp_lt_trans f asc hab hbc]; simp
    · have hv := (fieldCmp_eq_iff f asc b c).mp hbc
      rw [← fieldCmp_congr_right f asc hv a, hab]; simp
    · exact absurd rfl h2
    · have hv := (fieldCmp_eq_iff f asc a b).mp hab
      rw [fieldCmp_congr_left f asc hv c, hbc]; simp
    · have hv := (fieldCmp_eq_iff f asc a b).mp hab
      rw [fieldCmp_congr_left f asc hv c, hbc]
      exact ih h1 h2
    · exact absurd rfl h2
    · exact absurd rfl h1
    · exact absurd rfl h1
    · exact absurd rfl h1

theorem itemLt_false_iff (s : SortSpec) (a b : Item) :
    itemLt s b a = false ↔ itemCmp s a b ≠ .gt := by
  unfold itemLt
  rw [itemCmp_swap s a b]
  cases itemCmp s a b <;> decide

/-! ### The concrete sorters obey the `sort.Sort` contract -/

theorem validSorter_stdSorter : validSorter stdSorter := by
  intro s l
  haveI htot : IsTotal Item (fun a b => itemLt s b a = false) := by
    constructor
    intro a b
    show itemLt s b a = false ∨ itemLt s a b = false
    rw [itemLt_false_iff s a b, itemLt_false_iff s b a]
    rcases hc : itemCmp s a b with _ | _ | _
    · left; simp [hc]
    · left; simp [hc]
    · right
      rw [itemCmp_swap s a b, hc]
      simp [Ordering.swap]
  haveI htrans : IsTrans Item (fun a b => itemLt s b a = false) := by
    constructor
    intro a b c h1 h2
    show itemLt s c a = false
    rw [itemLt_false_iff] at h1 h2 ⊢
    exact itemCmp_ngt_trans s h1 h2
  constructor
  · exact List.perm_insertionSort _ l
  · exact List.sorted_insertionSort _ l

theorem validSorter_badSorter : validSorter badSorter := by
  intro s l
  by_cases hl : l = [iA, iB]
  · subst hl
    simp only [badSorter, if_pos rfl]
    constructor
    · exact List.Perm.swap iA iB []
    · have hA : itemLt s iA iB = false := by
        unfold itemLt
        rw [itemCmp_eq_of_payload_eq s (show iA.payload = iB.payload from rfl)]
        decide
      exact List.pairwise_cons.mpr
        ⟨fun x hx => by rw [List.mem_singleton.mp hx]; exact hA,
         List.pairwise_singleton _ _⟩
  · simp only [badSorter, if_neg hl]
    exact validSorter_stdSorter s l

/-! ### Evaluation lemmas for `findNoLock` -/

theorem latencyCancels_okCtx (latency : Nat) :
    latencyCancels latency okCtx = false := by
  simp [latencyCancels, okCtx]

theorem goSlice_all (l : List Item) : goSlice l 0 (l.length : Int) = some l := by
  unfold goSlice
  rw [if_pos ⟨by omega, by omega, by omega⟩]
  simp

theorem sortedOf_nil (g : Sorter) (h : Handler) (pred : Payload → Bool) :
    sortedOf g h pred [] = matchedOf h pred := by
  simp [sortedOf]

theorem sortedOf_pos (g : Sorter) (h : Handler) (pred : Payload → Bool)
    (s : SortSpec) (hs : s ≠ []) :
    sortedOf g h pred s = g (itemLt s) (matchedOf h pred) := by
  unfold sortedOf
  rw [if_pos (List.length_pos.mpr hs)]

theorem findNoLock_whole (g : Sorter) (h : Handler) (pred : Payload → Bool)
    (s : SortSpec) (perPage : Int) (hpp : perPage ≤ 0) :
    findNoLock g h okCtx pred s 1 perPage =
      .ok ⟨((sortedOf g h pred s).length : Int), 1, sortedOf g h pred s⟩ := by
  unfold findNoLock
  simp only [latencyCancels_okCtx, Bool.false_eq_true, if_false]
  have h1 : (sliceRange ((sortedOf g h pred s).length : Int) 1 perPage).1 = 0 := by
    unfold sliceRange
    rw [if_neg (by omega)]
    norm_num
  have h2 : (sliceRange ((sortedOf g h pred s).length : Int) 1 perPage).2 =
      ((sortedOf g h pred s).length : Int) := by
    unfold sliceRange
    rw [if_neg (by omega)]
  rw [h1, h2, goSlice_all]

theorem fetch_some_mem_keys (h : Handler) (id : Nat) (o : Item)
    (hf : fetch h id = some o) : id ∈ keys h.items := by
  rw [← mapLookup_isSome_iff h.items id]
  unfold fetch at hf
  rw [hf]
  rfl

theorem latencyCancels_true {h : Handler} {ctx : Ctx}
    (hc : ctx.canceled = true) (hl : h.latency ≠ 0) :
    latencyCancels h.latency ctx = true := by
  simp [latencyCancels, hc, hl]

theorem sliceRange_nonpos (total page perPage : Int) (hpp : perPage ≤ 0) :
    sliceRange total page perPage = ((page - 1) * perPage, total) := by
  unfold sliceRange
  rw [if_neg (by omega)]

theorem sliceRange_over (total page perPage : Int) (hpp : 0 < perPage)
    (hover : total - 1 < (page - 1) * perPage) :
    sliceRange total page perPage = (0, 0) := by
  unfold sliceRange
  rw [if_pos (by omega), if_pos (by omega)]

theorem sliceRange_clamp (total page perPage : Int) (hpp : 0 < perPage)
    (hin : (page - 1) * perPage ≤ total - 1)
    (hend : total - 1 < (page - 1) * perPage + perPage) :
    sliceRange total page perPage = ((page - 1) * perPage, total) := by
  unfold sliceRange
  rw [if_pos (by omega), if_neg (by omega), if_pos (by omega)]

theorem sliceRange_mid (total page perPage : Int) (hpp : 0 < perPage)
    (hin : (page - 1) * perPage ≤ total - 1)
    (hend : (page - 1) * perPage + perPage ≤ total - 1) :
    sliceRange total page perPage =
      ((page - 1) * perPage, (page - 1) * perPage + perPage) := by
  unfold sliceRange
  rw [if_pos (by omega), if_neg (by omega), if_neg (by omega)]

theorem goSlice_zero (l : List Item) : goSlice l 0 0 = some [] := by
  unfold goSlice
  rw [if_pos ⟨le_refl 0, le_refl 0, by omega⟩]
  simp

theorem goSlice_some (l : List Item) (start stop : Int) (h0 : 0 ≤ start)
    (h1 : start ≤ stop) (h2 : stop ≤ (l.length : Int)) :
    goSlice l start stop =
      some ((l.drop start.toNat).take (stop - start).toNat) := by
  unfold goSlice
  rw [if_pos ⟨h0, h1, h2⟩]

theorem findNoLock_eval (g : Sorter) (h : Handler) (pred : Payload → Bool)
    (s : SortSpec) (page perPage a b : Int)
    (hr : sliceRange ((sortedOf g h pred s).length : Int) page perPage = (a, b)) :
    findNoLock g h okCtx pred s page perPage =
      match goSlice (sortedOf g h pred s) a b with
      | some pageItems => .ok ⟨((sortedOf g h pred s).length : Int), page, pageItems⟩
      | none => .error .sliceBounds := by
  unfold findNoLock
  simp only [latencyCancels_okCtx, Bool.false_eq_true, if_false, hr]

/-! ### The uniqueness check of `Insert` -/

theorem eqFilter_true_iff (f : String) (v : Option Value) (p : Payload) :
    eqFilter f v p = true ↔ payloadGet p f = v := by
  simp [eqFilter]

theorem eqFilter_false_iff (f : String) (v : Option Value) (p : Payload) :
    eqFilter f v p = false ↔ payloadGet p f ≠ v := by
  simp [eqFilter]

theorem findNoLock_unique (g : Sorter) (h : Handler) (pred : Payload → Bool) :
    findNoLock g h okCtx pred [] 1 (-1) =
      .ok ⟨((matchedOf h pred).length : Int), 1, matchedOf h pred⟩ := by
  have hw := findNoLock_whole g h pred [] (-1) (by omega)
  rwa [sortedOf_nil] at hw

theorem matchedOf_eq_nil_iff (h : Handler) (hwf : WF h)
    (pred : Payload → Bool) :
    matchedOf h pred = [] ↔ ∀ p ∈ h.items, pred p.2.payload = false := by
  unfold matchedOf
  rw [List.filterMap_eq_nil]
  constructor
  · intro hall p hp
    have hid : p.1 ∈ h.ids := hwf.2.mem_iff.mpr (List.mem_map_of_mem Prod.fst hp)
    have hstep := hall p.1 hid
    unfold matchStep at hstep
    rw [show fetch h p.1 = some p.2 from mem_mapLookup h.items p.1 p.2 hwf.1 hp]
      at hstep
    have hstep2 : (if pred p.2.payload = true then some p.2 else none) = none := hstep
    cases hpred : pred p.2.payload
    · rfl
    · rw [hpred, if_pos rfl] at hstep2
      cases hstep2
  · intro hnone id hid
    unfold matchStep
    cases hfetch : fetch h id with
    | none => rfl
    | some it =>
      have hmem : (id, it) ∈ h.items := mapLookup_mem h.items id it hfetch
      have hp2 : pred it.payload = false := hnone (id, it) hmem
      show (if pred it.payload = true then some it else none) = none
      rw [hp2, if_neg Bool.false_ne_true]

theorem matchedOf_ne_nil (h : Handler) (hwf : WF h) (pred : Payload → Bool)
    (hne : matchedOf h pred ≠ []) :
    ∃ p ∈ h.items, pred p.2.payload = true := by
  by_contra hc
  push_neg at hc
  refine hne ((matchedOf_eq_nil_iff h hwf pred).mpr ?_)
  intro p hp
  cases hpred : pred p.2.payload
  · rfl
  · exact absurd hpred (hc p hp)

theorem checkUnique_step (g : Sorter) (h : Handler) (it : Item) (f : String)
    (rest : List String) :
    checkUnique g h okCtx it (f :: rest) =
      if (matchedOf h (eqFilter f (payloadGet it.payload f))).length > 0
      then some (.uniqueViolation f) else checkUnique g h okCtx it rest := by
  simp only [checkUnique]
  rw [findNoLock_unique g h (eqFilter f (payloadGet it.payload f))]

theorem checkUnique_eq_none_iff (g : Sorter) (h : Handler) (hwf : WF h)
    (it : Item) :
    ∀ fs : List String, checkUnique g h okCtx it fs = none ↔
      ∀ f ∈ fs, ∀ p ∈ h.items,
        eqFilter f (payloadGet it.payload f) p.2.payload = false := by
  intro fs
  induction fs with
  | nil => simp [checkUnique]
  | cons f rest ih =>
    rw [checkUnique_step]
    by_cases hlen : (matchedOf h (eqFilter f (payloadGet it.payload f))).length > 0
    · rw [if_pos hlen]
      constructor
      · intro hc; cases hc
      · intro hall
        exfalso
        have hnil : matchedOf h (eqFilter f (payloadGet it.payload f)) = [] :=
          (matchedOf_eq_nil_iff h hwf _).mpr
            (fun p hp => hall f (List.mem_cons_self f rest) p hp)
        rw [hnil] at hlen
        exact absurd hlen (by simp)
    · rw [if_neg hlen, ih]
      constructor
      · intro hrest f2 hf2 p hp
        rcases List.mem_cons.mp hf2 with rfl | hf2
        · have hnil : matchedOf h (eqFilter f2 (payloadGet it.payload f2)) = [] :=
            List.length_eq_zero.mp (by omega)
          exact (matchedOf_eq_nil_iff h hwf _).mp hnil p hp
        · exact hrest f2 hf2 p hp
      · intro hall f2 hf2 p hp
        exact hall f2 (List.mem_cons_of_mem f hf2) p hp

theorem checkUnique_some (g : Sorter) (h : Handler) (hwf : WF h) (it : Item) :
    ∀ (fs : List String) (e : StoreError),
      checkUnique g h okCtx it fs = some e →
      ∃ f ∈ fs, e = .uniqueViolation f ∧
        ∃ p ∈ h.items, eqFilter f (payloadGet it.payload f) p.2.payload = true := by
  intro fs
  induction fs with
  | nil => intro e hc; cases hc
  | cons f rest ih =>
    intro e hc
    rw [checkUnique_step] at hc
    by_cases hlen : (matchedOf h (eqFilter f (payloadGet it.payload f))).length > 0
    · rw [if_pos hlen] at hc
      have he : e = .uniqueViolation f := (Option.some.inj hc).symm
      have hne : matchedOf h (eqFilter f (payloadGet it.payload f)) ≠ [] := by
        intro hnil
        rw [hnil] at hlen
        exact absurd hlen (by simp)
      obtain ⟨p, hp, hpred⟩ := matchedOf_ne_nil h hwf _ hne
      exact ⟨f, List.mem_cons_self f rest, he, p, hp, hpred⟩
    · rw [if_neg hlen] at hc
      obtain ⟨f2, hf2, he, p, hp, hpred⟩ := ih e hc
      exact ⟨f2, List.mem_cons_of_mem f hf2, he, p, hp, hpred⟩

/-! ### The validation loop of `Insert` -/

theorem fetch_isSome_false (h : Handler) (id : Nat)
    (hd : ¬(fetch h id).isSome = true) : mapLookup h.items id = none := by
  unfold fetch at hd
  cases hl : mapLookup h.items id
  · rfl
  · rw [hl] at hd
    exact absurd rfl hd

theorem insCheck_eq_none_iff (g : Sorter) (h : Handler) (hwf : WF h) :
    ∀ batch : List Item, insCheck g h okCtx batch = none ↔
      ∀ it ∈ batch, mapLookup h.items it.id = none ∧
        ∀ f ∈ h.uniqueFields, ∀ p ∈ h.items,
          eqFilter f (payloadGet it.payload f) p.2.payload = false := by
  intro batch
  induction batch with
  | nil => simp [insCheck]
  | cons it rest ih =>
    unfold insCheck
    by_cases hdup : (fetch h it.id).isSome = true
    · rw [if_pos hdup]
      constructor
      · intro hc; cases hc
      · intro hall
        exfalso
        have hnone := (hall it (List.mem_cons_self it rest)).1
        unfold fetch at hdup
        rw [hnone] at hdup
        cases hdup
    · rw [if_neg hdup]
      cases hcu : checkUnique g h okCtx it h.uniqueFields with
      | some e =>
        constructor
        · intro hc
          exact Option.noConfusion hc
        · intro hall
          exfalso
          obtain ⟨f, hf, _, p, hp, hpred⟩ :=
            checkUnique_some g h hwf it h.uniqueFields e hcu
          have hfalse := (hall it (List.mem_cons_self it rest)).2 f hf p hp
          rw [hfalse] at hpred
          cases hpred
      | none =>
        show insCheck g h okCtx rest = none ↔ _
        rw [ih]
        constructor
        · intro hrest it2 hit2
          rcases List.mem_cons.mp hit2 with rfl | hit2
          · exact ⟨fetch_isSome_false h it2.id hdup,
              (checkUnique_eq_none_iff g h hwf it2 h.uniqueFields).mp hcu⟩
          · exact hrest it2 hit2
        · intro hall it2 hit2
          exact hall it2 (List.mem_cons_of_mem it hit2)

theorem insCheck_some (g : Sorter) (h : Handler) (hwf : WF h) :
    ∀ (batch : List Item) (e : StoreError),
      insCheck g h okCtx batch = some e →
      (e = .conflict ∧ ∃ it ∈ batch, it.id ∈ keys h.items) ∨
      (∃ f ∈ h.uniqueFields, e = .uniqueViolation f ∧
        ∃ it ∈ batch, ∃ p ∈ h.items,
          eqFilter f (payloadGet it.payload f) p.2.payload = true) := by
  intro batch
  induction batch with
  | nil => intro e hc; cases hc
  | cons it rest ih =>
    intro e hc
    unfold insCheck at hc
    by_cases hdup : (fetch h it.id).isSome = true
    · rw [if_pos hdup] at hc
      have he : e = .conflict := (Option.some.inj hc).symm
      refine Or.inl ⟨he, it, List.mem_cons_self it rest, ?_⟩
      rw [← mapLookup_isSome_iff h.items it.id]
      exact hdup
    · rw [if_neg hdup] at hc
      cases hcu : checkUnique g h okCtx it h.uniqueFields with
      | some e2 =>
        rw [hcu] at hc
        have he : e2 = e := Option.some.inj hc
        obtain ⟨f, hf, he2, p, hp, hpred⟩ :=
          checkUnique_some g h hwf it h.uniqueFields e2 hcu
        exact Or.inr ⟨f, hf, he ▸ he2, it, List.mem_cons_self it rest, p, hp, hpred⟩
      | none =>
        rw [hcu] at hc
        rcases ih e hc with ⟨he, it2, hit2, hk⟩ | ⟨f, hf, he, it2, hit2, p, hp, hpred⟩
        · exact Or.inl ⟨he, it2, List.mem_cons_of_mem it hit2, hk⟩
        · exact Or.inr ⟨f, hf, he, it2, List.mem_cons_of_mem it hit2, p, hp, hpred⟩

/-! ### The storage loop of `Insert` -/

theorem insStore_spec (σ : IterOrder) (hσ : validIter σ) :
    ∀ (batch : List Item) (h : Handler), (keys h.items).Nodup →
      (batch.map Item.id).Nodup → List.Perm h.ids (keys h.items) →
      (keys (insStore σ h batch).items).Nodup ∧
      List.Perm (insStore σ h batch).ids (keys (insStore σ h batch).items) ∧
      (∀ it ∈ batch, mapLookup (insStore σ h batch).items it.id = some it) ∧
      (∀ k, k ∉ batch.map Item.id →
        mapLookup (insStore σ h batch).items k = mapLookup h.items k) := by
  intro batch
  induction batch with
  | nil =>
    intro h hnd hbn hperm
    exact ⟨hnd, hperm, by simp, fun k _ => rfl⟩
  | cons it rest ih =>
    intro h hnd hbn hperm
    rw [List.map_cons, List.nodup_cons] at hbn
    have hstep : insStore σ h (it :: rest) =
        insStore σ (store σ { h with ids := h.ids ++ [it.id] } it) rest := rfl
    have hitems1 : (store σ { h with ids := h.ids ++ [it.id] } it).items =
        mapInsert h.items it.id it := rfl
    have hnd1 : (keys (store σ { h with ids := h.ids ++ [it.id] } it).items).Nodup := by
      rw [hitems1]
      exact nodup_keys_mapInsert h.items it.id it hnd
    have hperm1 : List.Perm (store σ { h with ids := h.ids ++ [it.id] } it).ids
        (keys (store σ { h with ids := h.ids ++ [it.id] } it).items) := by
      rw [hitems1]
      exact hσ (mapInsert h.items it.id it)
    obtain ⟨ha, hb, hc, hd⟩ :=
      ih (store σ { h with ids := h.ids ++ [it.id] } it) hnd1 hbn.2 hperm1
    rw [hstep]
    refine ⟨ha, hb, ?_, ?_⟩
    · intro it2 hit2
      rcases List.mem_cons.mp hit2 with rfl | hit2
      · rw [hd it2.id hbn.1, hitems1]
        exact mapLookup_mapInsert_self h.items it2.id it2
      · exact hc it2 hit2
    · intro k hk
      rw [List.map_cons, List.mem_cons, not_or] at hk
      rw [hd k hk.2, hitems1]
      exact mapLookup_mapInsert_ne h.items it.id it k hk.1

/-! ### The deletion loop of `Clear` -/

theorem mem_of_mem_mapErase (m : ItemMap) (k : Nat) (p : Nat × Item)
    (hp : p ∈ mapErase m k) : p ∈ m := by
  induction m with
  | nil => cases hp
  | cons q rest ih =>
    obtain ⟨a, b⟩ := q
    by_cases ha : a = k
    · subst ha
      simp only [mapErase, if_pos rfl] at hp
      exact List.mem_cons_of_mem _ hp
    · simp only [mapErase, if_neg ha] at hp
      rcases List.mem_cons.mp hp with hh | hh
      · exact hh ▸ List.mem_cons_self _ _
      · exact List.mem_cons_of_mem _ (ih hh)

theorem eraseIds_nil (m : ItemMap) : eraseIds m [] = m := rfl

theorem eraseIds_cons (m : ItemMap) (d : Nat) (ds : List Nat) :
    eraseIds m (d :: ds) = eraseIds (mapErase m d) ds := rfl

theorem eraseIds_eq_filter (ids : List Nat) :
    ∀ m : ItemMap, (keys m).Nodup →
      eraseIds m ids = m.filter (fun p => !decide (p.1 ∈ ids)) := by
  induction ids with
  | nil =>
    intro m _
    rw [eraseIds_nil]
    symm
    apply List.filter_eq_self.mpr
    intro p _
    simp
  | cons d ds ih =>
    intro m hnd
    rw [eraseIds_cons, ih (mapErase m d) (nodup_keys_mapErase m d hnd),
      mapErase_eq_filter m d hnd, List.filter_filter]
    apply List.filter_congr
    intro p _
    by_cases h1 : p.1 = d <;> by_cases h2 : p.1 ∈ ds <;>
      simp [h1, h2, List.mem_cons]

theorem nodup_keys_eraseIds (ids : List Nat) :
    ∀ m : ItemMap, (keys m).Nodup → (keys (eraseIds m ids)).Nodup := by
  induction ids with
  | nil => intro m hnd; exact hnd
  | cons d ds ih =>
    intro m hnd
    rw [eraseIds_cons]
    exact ih (mapErase m d) (nodup_keys_mapErase m d hnd)

theorem matchingIds_cons_false (m : ItemMap) (pred : Payload → Bool)
    (id : Nat) (rest : List Nat)
    (hc : (match mapLookup m id with
           | some it => pred it.payload
           | none => false) = false) :
    matchingIds m pred (id :: rest) = matchingIds m pred rest := by
  unfold matchingIds
  rw [List.filter_cons, hc]
  simp

theorem matchingIds_cons_true (m : ItemMap) (pred : Payload → Bool)
    (id : Nat) (rest : List Nat)
    (hc : (match mapLookup m id with
           | some it => pred it.payload
           | none => false) = true) :
    matchingIds m pred (id :: rest) = id :: matchingIds m pred rest := by
  unfold matchingIds
  rw [List.filter_cons, hc]
  simp

theorem matchingIds_mapErase_congr (m : ItemMap) (pred : Payload → Bool)
    (id : Nat) (rest : List Nat) (hout : id ∉ rest) :
    matchingIds (mapErase m id) pred rest = matchingIds m pred rest := by
  unfold matchingIds
  apply List.filter_congr
  intro id2 hid2
  have hne : id2 ≠ id := fun hc => hout (hc ▸ hid2)
  rw [mapLookup_mapErase_ne m id id2 hne]

theorem clearLoop_spec (σ : IterOrder) (pred : Payload → Bool) :
    ∀ (l : List Nat) (h : Handler), l.Nodup → (keys h.items).Nodup →
      (∀ p ∈ h.items, p.2.id = p.1) →
      (clearLoop σ pred l h).1.items =
        eraseIds h.items (matchingIds h.items pred l) ∧
      (clearLoop σ pred l h).2 = (matchingIds h.items pred l).length := by
  intro l
  induction l with
  | nil =>
    intro h _ _ _
    exact ⟨rfl, rfl⟩
  | cons id rest ih =>
    intro h hlnd hknd hkc
    rw [List.nodup_cons] at hlnd
    cases hf : fetch h id with
    | none =>
      have hlk : mapLookup h.items id = none := hf
      have hstep : clearLoop σ pred (id :: rest) h = clearLoop σ pred rest h := by
        simp only [clearLoop]
        rw [hf]
      have hm := matchingIds_cons_false h.items pred id rest (by rw [hlk])
      rw [hstep, hm]
      exact ih h hlnd.2 hknd hkc
    | some it =>
      have hlk : mapLookup h.items id = some it := hf
      have hit : it.id = id := hkc (id, it) (mapLookup_mem h.items id it hlk)
      cases hp : pred it.payload with
      | false =>
        have hred : clearLoop σ pred (id :: rest) h =
            (if pred it.payload = true then
              ((clearLoop σ pred rest (deleteOne σ h it.id)).1,
               (clearLoop σ pred rest (deleteOne σ h it.id)).2 + 1)
             else clearLoop σ pred rest h) := by
          simp only [clearLoop]
          rw [hf]
        have hstep : clearLoop σ pred (id :: rest) h = clearLoop σ pred rest h := by
          rw [hred, hp, if_neg Bool.false_ne_true]
        have hm := matchingIds_cons_false h.items pred id rest
          (by rw [hlk]; exact hp)
        rw [hstep, hm]
        exact ih h hlnd.2 hknd hkc
      | true =>
        have hred : clearLoop σ pred (id :: rest) h =
            (if pred it.payload = true then
              ((clearLoop σ pred rest (deleteOne σ h it.id)).1,
               (clearLoop σ pred rest (deleteOne σ h it.id)).2 + 1)
             else clearLoop σ pred rest h) := by
          simp only [clearLoop]
          rw [hf]
        have hstep : clearLoop σ pred (id :: rest) h =
            ((clearLoop σ pred rest (deleteOne σ h it.id)).1,
             (clearLoop σ pred rest (deleteOne σ h it.id)).2 + 1) := by
          rw [hred, hp, if_pos rfl]
        have hh' : (deleteOne σ h it.id).items = mapErase h.items id := by
          rw [deleteOne_eq, hit]
        have hknd' : (keys (deleteOne σ h it.id).items).Nodup := by
          rw [hh']
          exact nodup_keys_mapErase h.items id hknd
        have hkc' : ∀ p ∈ (deleteOne σ h it.id).items, p.2.id = p.1 := by
          intro p hp2
          rw [hh'] at hp2
          exact hkc p (mem_of_mem_mapErase h.items id p hp2)
        obtain ⟨hi, hn⟩ := ih (deleteOne σ h it.id) hlnd.2 hknd' hkc'
        have hmcong : matchingIds (mapErase h.items id) pred rest =
            matchingIds h.items pred rest :=
          matchingIds_mapErase_congr h.items pred id rest hlnd.1
        have hm := matchingIds_cons_true h.items pred id rest
          (by rw [hlk]; exact hp)
        rw [hstep, hm]
        constructor
        · show (clearLoop σ pred rest (deleteOne σ h it.id)).1.items = _
          rw [hi, hh', hmcong]
          rfl
        · show (clearLoop σ pred rest (deleteOne σ h it.id)).2 + 1 = _
          rw [hn, hh', hmcong]
          simp

theorem matchedOf_true_perm (h : Handler) (hwf : WF h) :
    List.Perm (matchedOf h (fun _ => true)) (h.items.map Prod.snd) := by
  unfold matchedOf
  have hcong : ∀ q ∈ keys h.items,
      matchStep h (fun _ => true) q = mapLookup h.items q := by
    intro q _
    unfold matchStep fetch
    cases hl : mapLookup h.items q <;> rfl
  have h1 : List.Perm (h.ids.filterMap (matchStep h (fun _ => true)))
      ((keys h.items).filterMap (matchStep h (fun _ => true))) :=
    hwf.2.filterMap _
  rw [List.filterMap_congr hcong, mapLookup_filterMap_keys h.items hwf.1] at h1
  exact h1

/-! ### Claim theorems -/

/-! ### C1 -/

/-- C1: the snapshot written by a successful mutation is NOT a self-contained
encoding of the full table: `saveDatafile` (filestore.go:97) serializes only
the `items` map, never the `ids` order slice, so two tables differing only in
id order write identical snapshots, and decoding rebuilds the order from an
unspecified Go map iteration.  After inserting ids 1 then 2 (in-memory order
`[1, 2]`), reloading the snapshot with the equally admissible reversed map
iteration yields the same record contents but id order `[2, 1]`. -/
theorem C1_snapshot_not_self_contained :
    insC1.2 = none ∧
    insC1.1.ids = [1, 2] ∧
    insC1.1.datafile = some insC1.1.items ∧
    freshC1.items = insC1.1.items ∧
    freshC1.ids = [2, 1] ∧
    ([2, 1] : List Nat) ≠ [1, 2] ∧
    (saveDatafile insC1.1).datafile = (saveDatafile { insC1.1 with ids := [2, 1] }).datafile ∧
    validIter iterB :=
  ⟨by decide, by decide, by decide, by decide, by decide, by decide, by decide,
   validIter_iterB⟩

/-! ### C2 -/

/-- C2: insertion order does not survive mutations.  Each `store` runs
`persistData`, whose `readDatafile` rebuilds `self.ids` from an unordered Go
map iteration (filestore.go:88-91), so after `insert([A,B,C])` (ids 1,2,3)
the order slice can already be `[3, 2, 1]`; after `delete(B)` a find with an
all-matching predicate and no sort returns `[C, A]`, not `[A, C]`.  The
reversed iteration order used here is admissible (`validIter iterB`). -/
theorem C2_insertion_order_not_preserved :
    insC2.2 = none ∧
    insC2.1.ids = [3, 2, 1] ∧
    delC2.2 = none ∧
    findNoLock gid delC2.1 okCtx (fun _ => true) [] 1 0 =
      .ok ⟨2, 1, [wC, w1]⟩ ∧
    wC ≠ w1 ∧
    validIter iterB :=
  ⟨by decide, by decide, by decide, by decide, by decide, validIter_iterB⟩

/-! ### C3 counterexample -/

/-- C3 counterexample.  (i) A batch containing two records with the same id
(`dupX`, `dupY`, neither id present in the table) passes the duplicate-id
check — which only compares against the pre-existing table (filestore.go:179)
— so the insert succeeds, yet `dupX` is not stored: the final table is
`[(1, dupY)]`.  "Every record of the batch is stored" fails.  (ii) Even for
a clean batch, the ids are not left appended: the persistence cycle run by
each `store` rebuilds the order slice from an unordered map iteration, so
inserting ids 1 then 2 can leave the order `[2, 1]`. -/
theorem C3_counterexample :
    insDup.2 = none ∧
    insDup.1.items = [(1, dupY)] ∧
    dupX ≠ dupY ∧
    insRev.2 = none ∧
    insRev.1.ids = [2, 1] :=
  ⟨by decide, by decide, by decide, by decide, by decide⟩

/-- C3 (amended): batch insert over a batch of pairwise-distinct ids.
The insert succeeds exactly when no batch id is already a table key and no
configured unique field value of a batch record is already taken by a stored
record.  On failure the returned error is `conflict` or a unique-field
violation and the state is completely unchanged (the validation loop runs
before any write).  On success every batch record is stored under its id,
other entries are untouched, every batch id is a member of the order
sequence, and the order sequence enumerates the key set — but as a
permutation rebuilt by the persistence cycle, not by appending (see the
counterexample, which also shows that a batch with an internal duplicate id
is accepted and silently drops the earlier record). -/
theorem C3_insert_batch (σ : IterOrder) (g : Sorter) (hσ : validIter σ)
    (h : Handler) (hwf : WF h) (batch : List Item)
    (hnd : (batch.map Item.id).Nodup) :
    ((Insert σ g okCtx h batch).2 = none ↔
      ∀ it ∈ batch, mapLookup h.items it.id = none ∧
        ∀ f ∈ h.uniqueFields, ∀ p ∈ h.items,
          eqFilter f (payloadGet it.payload f) p.2.payload = false) ∧
    (∀ e, (Insert σ g okCtx h batch).2 = some e →
      (Insert σ g okCtx h batch).1 = h ∧
      (e = .conflict ∨ ∃ f, e = .uniqueViolation f)) ∧
    ((Insert σ g okCtx h batch).2 = none →
      (∀ it ∈ batch, mapLookup (Insert σ g okCtx h batch).1.items it.id = some it) ∧
      (∀ k, k ∉ batch.map Item.id →
        mapLookup (Insert σ g okCtx h batch).1.items k = mapLookup h.items k) ∧
      List.Perm (Insert σ g okCtx h batch).1.ids
        (keys (Insert σ g okCtx h batch).1.items) ∧
      (∀ it ∈ batch, it.id ∈ (Insert σ g okCtx h batch).1.ids)) := by
  have hlat : ¬latencyCancels h.latency okCtx = true := by
    rw [latencyCancels_okCtx]
    exact Bool.false_ne_true
  cases hchk : insCheck g h okCtx batch with
  | some e =>
    have hin : Insert σ g okCtx h batch = (h, some e) := by
      unfold Insert
      rw [if_neg hlat, hchk]
    rw [hin]
    refine ⟨⟨fun hc => Option.noConfusion hc, fun hall => ?_⟩, ?_, ?_⟩
    · exfalso
      rw [← insCheck_eq_none_iff g h hwf batch] at hall
      rw [hchk] at hall
      cases hall
    · intro e2 he2
      have hee : e = e2 := Option.some.inj he2
      subst hee
      rcases insCheck_some g h hwf batch e hchk with ⟨he, _⟩ | ⟨f, _, he, _⟩
      · exact ⟨rfl, Or.inl he⟩
      · exact ⟨rfl, Or.inr ⟨f, he⟩⟩
    · intro hc
      exact absurd hc (fun hc2 => Option.noConfusion hc2)
  | none =>
    have hin : Insert σ g okCtx h batch = (insStore σ h batch, none) := by
      unfold Insert
      rw [if_neg hlat, hchk]
    rw [hin]
    obtain ⟨ha, hb, hstored, hother⟩ := insStore_spec σ hσ batch h hwf.1 hnd hwf.2
    refine ⟨⟨fun _ => (insCheck_eq_none_iff g h hwf batch).mp hchk, fun _ => rfl⟩,
      fun e2 he2 => Option.noConfusion he2, fun _ => ⟨hstored, hother, hb, ?_⟩⟩
    intro it hit
    have hmem : it.id ∈ keys (insStore σ h batch).items := by
      rw [← mapLookup_isSome_iff, hstored it hit]
      rfl
    exact hb.mem_iff.mpr hmem

/-- Witness for C3: inserting the fresh-id record `n3` into the two-record
table `h4` (no unique fields). -/
theorem C3_insert_batch_witness :
    validIter iterA ∧ WF h4 ∧ ([n3].map Item.id).Nodup ∧
    (((Insert iterA gid okCtx h4 [n3]).2 = none ↔
      ∀ it ∈ [n3], mapLookup h4.items it.id = none ∧
        ∀ f ∈ h4.uniqueFields, ∀ p ∈ h4.items,
          eqFilter f (payloadGet it.payload f) p.2.payload = false) ∧
    (∀ e, (Insert iterA gid okCtx h4 [n3]).2 = some e →
      (Insert iterA gid okCtx h4 [n3]).1 = h4 ∧
      (e = .conflict ∨ ∃ f, e = .uniqueViolation f)) ∧
    ((Insert iterA gid okCtx h4 [n3]).2 = none →
      (∀ it ∈ [n3],
        mapLookup (Insert iterA gid okCtx h4 [n3]).1.items it.id = some it) ∧
      (∀ k, k ∉ [n3].map Item.id →
        mapLookup (Insert iterA gid okCtx h4 [n3]).1.items k =
          mapLookup h4.items k) ∧
      List.Perm (Insert iterA gid okCtx h4 [n3]).1.ids
        (keys (Insert iterA gid okCtx h4 [n3]).1.items) ∧
      (∀ it ∈ [n3], it.id ∈ (Insert iterA gid okCtx h4 [n3]).1.ids))) :=
  ⟨validIter_iterA, by decide, by decide,
   C3_insert_batch iterA gid validIter_iterA h4 (by decide) [n3] (by decide)⟩

/-! ### C4 counterexample -/

/-- C4 counterexample: a successful version-checked update does NOT leave the
order position of the record unchanged.  `store` runs the persistence cycle, which
rebuilds the order slice from an unordered Go map iteration: updating id 1 in
a table with order `[1, 2]` can leave order `[2, 1]` (id 1 moved from
position 0 to position 1).  The reversed iteration is admissible. -/
theorem C4_counterexample :
    updC4.2 = none ∧
    h4.ids = [1, 2] ∧
    updC4.1.ids = [2, 1] ∧
    mapLookup updC4.1.items 1 = some n1 ∧
    validIter iterB :=
  ⟨by decide, by decide, by decide, by decide, validIter_iterB⟩

/-- C4 (amended): the version-gated behavior of `Update` and `Delete`.
If the target id is absent the operation fails with `notFound`; if the
version tag of the stored record differs from the expected tag it fails with `conflict`
and the whole state — in particular the stored bytes of the targeted record — is
unchanged.  On success, `Update` (with matching ids) replaces the stored
bytes for the id, other entries are untouched, and the order sequence remains
a permutation of the same id set — but NOT necessarily in the same positions,
because the persistence cycle rebuilds it from an unordered map iteration
(see the counterexample).  On success, `Delete` removes both the map entry
and the id from the order sequence, leaving other entries untouched. -/
theorem C4_version_gated_mutation (σ : IterOrder) (hσ : validIter σ)
    (h : Handler) (hwf : WF h) (item original : Item) :
    (fetch h original.id = none →
      Update σ okCtx h item original = (h, some .notFound)) ∧
    (∀ o, fetch h original.id = some o → original.etag ≠ o.etag →
      Update σ okCtx h item original = (h, some .conflict)) ∧
    (∀ o, fetch h original.id = some o → original.etag = o.etag →
      item.id = original.id →
      (Update σ okCtx h item original).2 = none ∧
      mapLookup (Update σ okCtx h item original).1.items item.id = some item ∧
      (∀ k, k ≠ item.id →
        mapLookup (Update σ okCtx h item original).1.items k =
          mapLookup h.items k) ∧
      List.Perm (Update σ okCtx h item original).1.ids h.ids) ∧
    (fetch h item.id = none →
      Delete σ okCtx h item = (h, some .notFound)) ∧
    (∀ o, fetch h item.id = some o → item.etag ≠ o.etag →
      Delete σ okCtx h item = (h, some .conflict)) ∧
    (∀ o, fetch h item.id = some o → item.etag = o.etag →
      (Delete σ okCtx h item).2 = none ∧
      mapLookup (Delete σ okCtx h item).1.items item.id = none ∧
      item.id ∉ (Delete σ okCtx h item).1.ids ∧
      (∀ k, k ≠ item.id →
        mapLookup (Delete σ okCtx h item).1.items k = mapLookup h.items k)) := by
  refine ⟨?_, ?_, ?_, ?_, ?_, ?_⟩
  · intro hf
    unfold Update
    rw [if_neg (by rw [latencyCancels_okCtx]; exact Bool.false_ne_true), hf]
  · intro o hf hne
    have hstep : Update σ okCtx h item original =
        if (original.etag != o.etag) = true then (h, some StoreError.conflict)
        else (store σ h item, none) := by
      unfold Update
      rw [if_neg (by rw [latencyCancels_okCtx]; exact Bool.false_ne_true), hf]
    rw [hstep, if_pos (bne_iff_ne.mpr hne)]
  · intro o hf heq hid
    have hstep : Update σ okCtx h item original =
        if (original.etag != o.etag) = true then (h, some StoreError.conflict)
        else (store σ h item, none) := by
      unfold Update
      rw [if_neg (by rw [latencyCancels_okCtx]; exact Bool.false_ne_true), hf]
    have hupd : Update σ okCtx h item original = (store σ h item, none) := by
      rw [hstep, if_neg (by simp [heq])]
    rw [hupd]
    have hmem : item.id ∈ keys h.items := by
      rw [hid]; exact fetch_some_mem_keys h original.id o hf
    refine ⟨rfl, ?_, ?_, ?_⟩
    · rw [store_eq]
      exact mapLookup_mapInsert_self h.items item.id item
    · intro k hk
      rw [store_eq]
      exact mapLookup_mapInsert_ne h.items item.id item k hk
    · rw [store_eq]
      have h1 := hσ (mapInsert h.items item.id item)
      rw [keys_mapInsert_mem h.items item.id item hmem] at h1
      exact h1.trans hwf.2.symm
  · intro hf
    unfold Delete
    rw [if_neg (by rw [latencyCancels_okCtx]; exact Bool.false_ne_true), hf]
  · intro o hf hne
    have hstep : Delete σ okCtx h item =
        if (item.etag != o.etag) = true then (h, some StoreError.conflict)
        else (deleteOne σ h item.id, none) := by
      unfold Delete
      rw [if_neg (by rw [latencyCancels_okCtx]; exact Bool.false_ne_true), hf]
    rw [hstep, if_pos (bne_iff_ne.mpr hne)]
  · intro o hf heq
    have hstep : Delete σ okCtx h item =
        if (item.etag != o.etag) = true then (h, some StoreError.conflict)
        else (deleteOne σ h item.id, none) := by
      unfold Delete
      rw [if_neg (by rw [latencyCancels_okCtx]; exact Bool.false_ne_true), hf]
    have hdel : Delete σ okCtx h item = (deleteOne σ h item.id, none) := by
      rw [hstep, if_neg (by simp [heq])]
    rw [hdel]
    refine ⟨rfl, ?_, ?_, ?_⟩
    · rw [deleteOne_eq]
      exact mapLookup_mapErase_self h.items item.id hwf.1
    · rw [deleteOne_eq]
      intro hmem
      have h1 := (hσ (mapErase h.items item.id)).mem_iff.mp hmem
      exact not_mem_keys_mapErase_self h.items item.id hwf.1 h1
    · intro k hk
      rw [deleteOne_eq]
      exact mapLookup_mapErase_ne h.items item.id k hk

/-- Witness for C4 on the concrete two-record table `h4`. -/
theorem C4_version_gated_mutation_witness :
    validIter iterA ∧ WF h4 ∧
    ((fetch h4 o1.id = none →
      Update iterA okCtx h4 n1 o1 = (h4, some .notFound)) ∧
    (∀ o, fetch h4 o1.id = some o → o1.etag ≠ o.etag →
      Update iterA okCtx h4 n1 o1 = (h4, some .conflict)) ∧
    (∀ o, fetch h4 o1.id = some o → o1.etag = o.etag →
      n1.id = o1.id →
      (Update iterA okCtx h4 n1 o1).2 = none ∧
      mapLookup (Update iterA okCtx h4 n1 o1).1.items n1.id = some n1 ∧
      (∀ k, k ≠ n1.id →
        mapLookup (Update iterA okCtx h4 n1 o1).1.items k =
          mapLookup h4.items k) ∧
      List.Perm (Update iterA okCtx h4 n1 o1).1.ids h4.ids) ∧
    (fetch h4 n1.id = none →
      Delete iterA okCtx h4 n1 = (h4, some .notFound)) ∧
    (∀ o, fetch h4 n1.id = some o → n1.etag ≠ o.etag →
      Delete iterA okCtx h4 n1 = (h4, some .conflict)) ∧
    (∀ o, fetch h4 n1.id = some o → n1.etag = o.etag →
      (Delete iterA okCtx h4 n1).2 = none ∧
      mapLookup (Delete iterA okCtx h4 n1).1.items n1.id = none ∧
      n1.id ∉ (Delete iterA okCtx h4 n1).1.ids ∧
      (∀ k, k ≠ n1.id →
        mapLookup (Delete iterA okCtx h4 n1).1.items k =
          mapLookup h4.items k))) :=
  ⟨validIter_iterA, by decide,
   C4_version_gated_mutation iterA validIter_iterA h4 (by decide) n1 o1⟩

/-! ### C5 counterexample -/

/-- C5 counterexample: the uniqueness check is NOT performed with limit 1.
`Insert` calls `findNoLock(ctx, lookup, 1, -1)` (filestore.go:188): page 1
with perPage -1, i.e. no pagination limit.  On a table where two records
share the value of the candidate on unique field `u`, the query the code runs
returns both matches, while a limit-1 query would return exactly one.  The
violation itself is still reported, naming the field. -/
theorem C5_counterexample :
    Insert iterA gid okCtx h5 [cand5] = (h5, some (.uniqueViolation ("u"))) ∧
    findNoLock gid h5 okCtx (eqFilter ("u") (payloadGet cand5.payload ("u"))) [] 1 (-1) =
      .ok ⟨2, 1, [e1, e2]⟩ ∧
    findNoLock gid h5 okCtx (eqFilter ("u") (payloadGet cand5.payload ("u"))) [] 1 1 =
      .ok ⟨2, 1, [e1]⟩ :=
  ⟨by decide, by decide, by decide⟩

/-- C5 (amended): uniqueness enforcement at insert.  The check runs through
the same query path as `find` — `findNoLock` with a "field == value"
predicate, no sort, page 1 and per_page -1 (NO limit, contrary to the
claimed "limit 1"; the violation is detected by the result being non-empty).
If the insert fails with a unique-field violation, the reported field is a
configured unique field and some existing stored record shares the value of
some batch candidate on it; conversely, if every batch id is fresh and no
existing record shares a unique-field value with a candidate, the insert
does not fail. -/
theorem C5_unique_enforcement (σ : IterOrder) (g : Sorter) (h : Handler)
    (hwf : WF h) (batch : List Item) :
    (∀ f, (Insert σ g okCtx h batch).2 = some (.uniqueViolation f) →
      f ∈ h.uniqueFields ∧ ∃ it ∈ batch, ∃ p ∈ h.items,
        payloadGet p.2.payload f = payloadGet it.payload f) ∧
    ((∀ it ∈ batch, mapLookup h.items it.id = none ∧
        ∀ f ∈ h.uniqueFields, ∀ p ∈ h.items,
          payloadGet p.2.payload f ≠ payloadGet it.payload f) →
      (Insert σ g okCtx h batch).2 = none) := by
  have hlat : ¬latencyCancels h.latency okCtx = true := by
    rw [latencyCancels_okCtx]
    exact Bool.false_ne_true
  constructor
  · intro f hf
    cases hchk : insCheck g h okCtx batch with
    | none =>
      have hin : Insert σ g okCtx h batch = (insStore σ h batch, none) := by
        unfold Insert
        rw [if_neg hlat, hchk]
      rw [hin] at hf
      cases hf
    | some e =>
      have hin : Insert σ g okCtx h batch = (h, some e) := by
        unfold Insert
        rw [if_neg hlat, hchk]
      rw [hin] at hf
      have he : e = .uniqueViolation f := Option.some.inj hf
      subst he
      rcases insCheck_some g h hwf batch _ hchk with ⟨he, _⟩ |
        ⟨f2, hf2, he, it, hit, p, hp, hpred⟩
      · cases he
      · injection he with hff
        subst hff
        exact ⟨hf2, it, hit, p, hp, (eqFilter_true_iff _ _ _).mp hpred⟩
  · intro hall
    have hnone : insCheck g h okCtx batch = none := by
      rw [insCheck_eq_none_iff g h hwf batch]
      intro it hit
      refine ⟨(hall it hit).1, fun f hf p hp => ?_⟩
      rw [eqFilter_false_iff]
      exact (hall it hit).2 f hf p hp
    have hin : Insert σ g okCtx h batch = (insStore σ h batch, none) := by
      unfold Insert
      rw [if_neg hlat, hnone]
    rw [hin]

/-- Witness for C5 on the table `h5` with unique field `u`: inserting
`cand5`, which shares the value 7 with both stored records. -/
theorem C5_unique_enforcement_witness :
    WF h5 ∧
    ((∀ f, (Insert iterA gid okCtx h5 [cand5]).2 = some (.uniqueViolation f) →
      f ∈ h5.uniqueFields ∧ ∃ it ∈ [cand5], ∃ p ∈ h5.items,
        payloadGet p.2.payload f = payloadGet it.payload f) ∧
    ((∀ it ∈ [cand5], mapLookup h5.items it.id = none ∧
        ∀ f ∈ h5.uniqueFields, ∀ p ∈ h5.items,
          payloadGet p.2.payload f ≠ payloadGet it.payload f) →
      (Insert iterA gid okCtx h5 [cand5]).2 = none)) :=
  ⟨by decide, C5_unique_enforcement iterA gid h5 (by decide) [cand5]⟩

/-! ### C6 -/

/-- C6 counterexample: `findNoLock` sorts with `sort.Sort` (filestore.go:304),
which Go documents as not guaranteed to be stable; `badSorter` obeys that
contract (`validSorter badSorter`), yet on the tied matches `[iA, iB]`
(identical payloads, retained in insertion order) it returns `[iB, iA]` — so
the claim that ties always retain the pre-sort (insertion) relative order
fails on an admissible execution.  A stable sort would return `[iA, iB]`. -/
theorem C6_counterexample :
    validSorter badSorter ∧
    matchedOf hC6 (fun _ => true) = [iA, iB] ∧
    itemLt [("f", true)] iA iB = false ∧
    itemLt [("f", true)] iB iA = false ∧
    findNoLock badSorter hC6 okCtx (fun _ => true) [("f", true)] 1 0 =
      .ok ⟨2, 1, [iB, iA]⟩ ∧
    ([iB, iA] : List Item) ≠ [iA, iB] :=
  ⟨validSorter_badSorter, by decide, by decide, by decide, by decide, by decide⟩

/-- C6 (amended): for every find whose sorter satisfies the documented
`sort.Sort` contract and whose sort specification is non-empty, the returned
list (page 1, no pagination limit) is a permutation of the retained matches
that is pairwise non-descending for the multi-key comparator (first field
first, ties decided by later fields); equal-key ties are NOT guaranteed to
retain the pre-sort order, since `sort.Sort` is not stable. -/
theorem C6_sorted_permutation (g : Sorter) (hg : validSorter g) (h : Handler)
    (pred : Payload → Bool) (s : SortSpec) (hs : s ≠ []) :
    ∃ l : ItemList,
      findNoLock g h okCtx pred s 1 0 = .ok l ∧
      l.items = g (itemLt s) (matchedOf h pred) ∧
      List.Perm l.items (matchedOf h pred) ∧
      List.Pairwise (fun a b => itemLt s b a = false) l.items := by
  refine ⟨⟨((sortedOf g h pred s).length : Int), 1, sortedOf g h pred s⟩,
    findNoLock_whole g h pred s 0 (le_refl 0), ?_, ?_, ?_⟩
  · exact sortedOf_pos g h pred s hs
  · rw [show (ItemList.mk ((sortedOf g h pred s).length : Int) 1
        (sortedOf g h pred s)).items = sortedOf g h pred s from rfl,
      sortedOf_pos g h pred s hs]
    exact (hg s (matchedOf h pred)).1
  · rw [show (ItemList.mk ((sortedOf g h pred s).length : Int) 1
        (sortedOf g h pred s)).items = sortedOf g h pred s from rfl,
      sortedOf_pos g h pred s hs]
    exact (hg s (matchedOf h pred)).2

/-- Witness for C6: the contract hypotheses are satisfiable — the insertion
sorter obeys the contract, and the conclusion holds on the concrete table
`hC6`. -/
theorem C6_sorted_permutation_witness :
    validSorter stdSorter ∧
    ([(("f" : String), true)] : SortSpec) ≠ [] ∧
    (∃ l : ItemList,
      findNoLock stdSorter hC6 okCtx (fun _ => true) [("f", true)] 1 0 = .ok l ∧
      l.items = stdSorter (itemLt [("f", true)]) (matchedOf hC6 (fun _ => true)) ∧
      List.Perm l.items (matchedOf hC6 (fun _ => true)) ∧
      List.Pairwise (fun a b => itemLt [("f", true)] b a = false) l.items) :=
  ⟨validSorter_stdSorter, by decide,
   C6_sorted_permutation stdSorter validSorter_stdSorter hC6 (fun _ => true)
     [("f", true)] (by decide)⟩

/-! ### C7 counterexample -/

/-- C7 counterexample: with `per_page ≤ 0` the whole filtered list is NOT
always returned.  The slice start `(page-1)*perPage` is applied even in the
`perPage ≤ 0` branch (filestore.go:308, 319): on a 2-record table,
`find(page = 0, per_page = -1)` computes start `1` and returns only the
second record instead of the whole list. -/
theorem C7_counterexample :
    findNoLock gid h7 okCtx (fun _ => true) [] 0 (-1) = .ok ⟨2, 0, [e2]⟩ ∧
    matchedOf h7 (fun _ => true) = [e1, e2] ∧
    ([e2] : List Item) ≠ [e1, e2] :=
  ⟨by decide, by decide, by decide⟩

/-! ### C10 -/

/-- C10: `Update` stores the replacement under `item.ID`, not under the id of
the record it version-checked (`original.ID`, filestore.go:217, 227).  When
the ids differ and the new id is fresh, the call succeeds, the new record is
stored under `item.ID`, the record under `original.ID` is left in the table
unchanged, and the table grows by one record — the original is not
replaced. -/
theorem C10_update_id_mismatch (σ : IterOrder) (hσ : validIter σ)
    (h : Handler) (hwf : WF h) (item original o : Item)
    (hf : fetch h original.id = some o) (hetag : original.etag = o.etag)
    (hne : item.id ≠ original.id) (hnew : item.id ∉ keys h.items) :
    (Update σ okCtx h item original).2 = none ∧
    mapLookup (Update σ okCtx h item original).1.items item.id = some item ∧
    mapLookup (Update σ okCtx h item original).1.items original.id = some o ∧
    (Update σ okCtx h item original).1.items.length = h.items.length + 1 ∧
    item.id ∈ (Update σ okCtx h item original).1.ids ∧
    original.id ∈ (Update σ okCtx h item original).1.ids := by
  have hstep : Update σ okCtx h item original =
      if (original.etag != o.etag) = true then (h, some StoreError.conflict)
      else (store σ h item, none) := by
    unfold Update
    rw [if_neg (by rw [latencyCancels_okCtx]; exact Bool.false_ne_true), hf]
  have hupd : Update σ okCtx h item original = (store σ h item, none) := by
    rw [hstep, if_neg (by simp [hetag])]
  rw [hupd]
  have horig : mapLookup h.items original.id = some o := hf
  have hkeys : keys (mapInsert h.items item.id item) = keys h.items ++ [item.id] :=
    keys_mapInsert_not_mem h.items item.id item hnew
  have hperm := hσ (mapInsert h.items item.id item)
  rw [hkeys] at hperm
  refine ⟨rfl, ?_, ?_, ?_, ?_, ?_⟩
  · rw [store_eq]
    exact mapLookup_mapInsert_self h.items item.id item
  · rw [store_eq]
    rw [mapLookup_mapInsert_ne h.items item.id item original.id (Ne.symm hne)]
    exact horig
  · rw [store_eq]
    exact length_mapInsert_not_mem h.items item.id item hnew
  · rw [store_eq]
    exact hperm.mem_iff.mpr (by simp)
  · rw [store_eq]
    refine hperm.mem_iff.mpr ?_
    rw [List.mem_append]
    exact Or.inl (fetch_some_mem_keys h original.id o hf)

/-- Witness for C10: updating the one-record table `h4` restricted to id 1
with the replacement `n3` carrying id 3 grows the table instead of replacing
the record. -/
theorem C10_update_id_mismatch_witness :
    validIter iterA ∧ WF h4 ∧ fetch h4 o1.id = some o1 ∧ o1.etag = o1.etag ∧
    n3.id ≠ o1.id ∧ n3.id ∉ keys h4.items ∧
    ((Update iterA okCtx h4 n3 o1).2 = none ∧
     mapLookup (Update iterA okCtx h4 n3 o1).1.items n3.id = some n3 ∧
     mapLookup (Update iterA okCtx h4 n3 o1).1.items o1.id = some o1 ∧
     (Update iterA okCtx h4 n3 o1).1.items.length = h4.items.length + 1 ∧
     n3.id ∈ (Update iterA okCtx h4 n3 o1).1.ids ∧
     o1.id ∈ (Update iterA okCtx h4 n3 o1).1.ids) :=
  ⟨validIter_iterA, by decide, by decide, rfl, by decide, by decide,
   C10_update_id_mismatch iterA validIter_iterA h4 (by decide) n3 o1 o1
     (by decide) rfl (by decide) (by decide)⟩

/-! ### C9 amended theorem -/

/-- C9 (amended): when the ambient context is cancelled during a configured
artificial latency, `Insert`, `Update`, `Delete` and `findNoLock` return a
cancellation error and leave the state entirely unchanged.  `Clear` also
returns the cancellation error and deletes nothing, but its unconditional
trailing `persistData` (filestore.go:276) still runs: the durable location is
rewritten from the in-memory map, and the id order slice is rebuilt from an
unordered map iteration — a cancelled `Clear` is NOT mutation-free (see the
counterexample). -/
theorem C9_latency_cancellation (σ : IterOrder) (g : Sorter) (h : Handler)
    (ctx : Ctx) (hc : ctx.canceled = true) (hl : h.latency ≠ 0)
    (batch : List Item) (item original : Item) (pred : Payload → Bool)
    (s : SortSpec) (page perPage : Int) :
    Insert σ g ctx h batch = (h, some .canceled) ∧
    Update σ ctx h item original = (h, some .canceled) ∧
    Delete σ ctx h item = (h, some .canceled) ∧
    findNoLock g h ctx pred s page perPage = .error .canceled ∧
    Clear σ ctx h pred = (persistData σ h, 0, some .canceled) ∧
    (persistData σ h).items = h.items ∧
    (persistData σ h).datafile = some h.items := by
  have hlc : latencyCancels h.latency ctx = true := latencyCancels_true hc hl
  refine ⟨?_, ?_, ?_, ?_, ?_, rfl, rfl⟩
  · unfold Insert; rw [if_pos hlc]
  · unfold Update; rw [if_pos hlc]
  · unfold Delete; rw [if_pos hlc]
  · unfold findNoLock; rw [if_pos hlc]
  · unfold Clear; rw [if_pos hlc]

/-- Witness for C9 on the concrete latency-1 handler `h9` with a cancelled
context. -/
theorem C9_latency_cancellation_witness :
    (⟨true⟩ : Ctx).canceled = true ∧ h9.latency ≠ 0 ∧
    (Insert iterB gid ⟨true⟩ h9 [w1] = (h9, some .canceled) ∧
     Update iterB ⟨true⟩ h9 n1 o1 = (h9, some .canceled) ∧
     Delete iterB ⟨true⟩ h9 o1 = (h9, some .canceled) ∧
     findNoLock gid h9 ⟨true⟩ (fun _ => true) [] 1 0 = .error .canceled ∧
     Clear iterB ⟨true⟩ h9 (fun _ => true) =
       (persistData iterB h9, 0, some .canceled) ∧
     (persistData iterB h9).items = h9.items ∧
     (persistData iterB h9).datafile = some h9.items) :=
  ⟨rfl, by decide,
   C9_latency_cancellation iterB gid h9 ⟨true⟩ rfl (by decide) [w1] n1 o1
     (fun _ => true) [] 1 0⟩

/-! ### End C9/C10 -/

/-- C7 (amended): pagination of `findNoLock` (no sort), restricted to the
parameter region where the computed slice start `(page-1)*perPage` is
non-negative and `page ≥ 1` (outside it the slice indices are out of range —
a Go runtime fault; see the counterexample for `per_page ≤ 0` with
`page = 0`).  Then: total is the size of the full filtered list; with
`per_page ≤ 0` the whole filtered list is returned; with `per_page > 0` an
empty page is returned when start exceeds the last valid index, else the
slice `[start, min(start+per_page, total))`; and an empty table yields total
0 and an empty page. -/
theorem C7_pagination (g : Sorter) (h : Handler) (pred : Payload → Bool)
    (page perPage : Int) (hpage : 1 ≤ page)
    (hstart : 0 ≤ (page - 1) * perPage) :
    (perPage ≤ 0 →
      findNoLock g h okCtx pred [] page perPage =
        .ok ⟨((matchedOf h pred).length : Int), page, matchedOf h pred⟩) ∧
    (0 < perPage → ((matchedOf h pred).length : Int) - 1 < (page - 1) * perPage →
      findNoLock g h okCtx pred [] page perPage =
        .ok ⟨((matchedOf h pred).length : Int), page, []⟩) ∧
    (0 < perPage → (page - 1) * perPage ≤ ((matchedOf h pred).length : Int) - 1 →
      findNoLock g h okCtx pred [] page perPage =
        .ok ⟨((matchedOf h pred).length : Int), page,
          ((matchedOf h pred).drop ((page - 1) * perPage).toNat).take
            (min ((page - 1) * perPage + perPage)
              ((matchedOf h pred).length : Int) - (page - 1) * perPage).toNat⟩) ∧
    (h.ids = [] →
      findNoLock g h okCtx pred [] page perPage = .ok ⟨0, page, []⟩) := by
  have hsort : sortedOf g h pred [] = matchedOf h pred := sortedOf_nil g h pred
  have hwhole : perPage ≤ 0 →
      findNoLock g h okCtx pred [] page perPage =
        .ok ⟨((matchedOf h pred).length : Int), page, matchedOf h pred⟩ := by
    intro hpp
    have hz : (page - 1) * perPage = 0 :=
      le_antisymm (mul_nonpos_iff.mpr (Or.inl ⟨by omega, hpp⟩)) hstart
    have hr : sliceRange ((sortedOf g h pred []).length : Int) page perPage =
        (0, ((sortedOf g h pred []).length : Int)) := by
      rw [sliceRange_nonpos _ _ _ hpp, hz]
    rw [findNoLock_eval g h pred [] page perPage _ _ hr, hsort, goSlice_all]
  have hempty : 0 < perPage →
      ((matchedOf h pred).length : Int) - 1 < (page - 1) * perPage →
      findNoLock g h okCtx pred [] page perPage =
        .ok ⟨((matchedOf h pred).length : Int), page, []⟩ := by
    intro hpp hover
    have hr : sliceRange ((sortedOf g h pred []).length : Int) page perPage =
        (0, 0) := by
      rw [hsort]
      exact sliceRange_over _ _ _ hpp hover
    rw [findNoLock_eval g h pred [] page perPage _ _ hr, hsort, goSlice_zero]
  refine ⟨hwhole, hempty, ?_, ?_⟩
  · intro hpp hin
    by_cases hend : ((matchedOf h pred).length : Int) - 1 <
        (page - 1) * perPage + perPage
    · have hr : sliceRange ((sortedOf g h pred []).length : Int) page perPage =
          ((page - 1) * perPage, ((matchedOf h pred).length : Int)) := by
        rw [hsort]
        exact sliceRange_clamp _ _ _ hpp hin hend
      rw [findNoLock_eval g h pred [] page perPage _ _ hr, hsort,
        goSlice_some _ _ _ hstart (by omega) (by omega)]
      have hmin : min ((page - 1) * perPage + perPage)
          ((matchedOf h pred).length : Int) = ((matchedOf h pred).length : Int) :=
        min_eq_right (by omega)
      rw [hmin]
    · have hr : sliceRange ((sortedOf g h pred []).length : Int) page perPage =
          ((page - 1) * perPage, (page - 1) * perPage + perPage) := by
        rw [hsort]
        exact sliceRange_mid _ _ _ hpp hin (by omega)
      rw [findNoLock_eval g h pred [] page perPage _ _ hr, hsort,
        goSlice_some _ _ _ hstart (by omega) (by omega)]
      have hmin : min ((page - 1) * perPage + perPage)
          ((matchedOf h pred).length : Int) = (page - 1) * perPage + perPage :=
        min_eq_left (by omega)
      rw [hmin]
  · intro hids
    have hm : matchedOf h pred = [] := by
      unfold matchedOf
      rw [hids]
      rfl
    rcases le_or_lt perPage 0 with hpp | hpp
    · rw [hwhole hpp, hm]
      rfl
    · have hover : ((matchedOf h pred).length : Int) - 1 < (page - 1) * perPage := by
        rw [hm]
        simpa using by omega
      rw [hempty hpp hover, hm]
      rfl

/-- Witness for C7 on the concrete two-record table `h7` with `page = 2`,
`per_page = 1`. -/
theorem C7_pagination_witness :
    (1 : Int) ≤ 2 ∧ (0 : Int) ≤ (2 - 1) * 1 ∧
    (((1 : Int) ≤ 0 →
      findNoLock gid h7 okCtx (fun _ => true) [] 2 1 =
        .ok ⟨((matchedOf h7 (fun _ => true)).length : Int), 2,
          matchedOf h7 (fun _ => true)⟩) ∧
    ((0 : Int) < 1 →
      ((matchedOf h7 (fun _ => true)).length : Int) - 1 < (2 - 1) * 1 →
      findNoLock gid h7 okCtx (fun _ => true) [] 2 1 =
        .ok ⟨((matchedOf h7 (fun _ => true)).length : Int), 2, []⟩) ∧
    ((0 : Int) < 1 →
      (2 - 1) * 1 ≤ ((matchedOf h7 (fun _ => true)).length : Int) - 1 →
      findNoLock gid h7 okCtx (fun _ => true) [] 2 1 =
        .ok ⟨((matchedOf h7 (fun _ => true)).length : Int), 2,
          ((matchedOf h7 (fun _ => true)).drop ((2 - 1) * 1 : Int).toNat).take
            (min ((2 - 1) * 1 + 1)
              ((matchedOf h7 (fun _ => true)).length : Int) - (2 - 1) * 1).toNat⟩) ∧
    (h7.ids = [] →
      findNoLock gid h7 okCtx (fun _ => true) [] 2 1 = .ok ⟨0, 2, []⟩)) :=
  ⟨by omega, by omega,
   C7_pagination gid h7 (fun _ => true) 2 1 (by omega) (by omega)⟩

/-! ### C8 -/

/-- C8: `Clear` iterates a copy of the id order taken before any deletion
(filestore.go:261-262), deletes exactly the records whose payload matches
the predicate at call time through the single-delete path `delete` with no
version check (filestore.go:271), and returns the count deleted: on a
well-formed table the remaining map is exactly the non-matching entries, and
a subsequent find with an all-true predicate returns exactly the remaining
records (so the deleted ones are excluded).  `hkc` is the reachable-state
invariant that the id field of a stored record equals its map key (stores go
through `items[item.ID] = item`, filestore.go:125). -/
theorem C8_clear_semantics (σ : IterOrder) (g : Sorter) (hσ : validIter σ)
    (h : Handler) (hwf : WF h) (hkc : ∀ p ∈ h.items, p.2.id = p.1)
    (pred : Payload → Bool) :
    (Clear σ okCtx h pred).2.2 = none ∧
    (Clear σ okCtx h pred).2.1 = (matchingIds h.items pred h.ids).length ∧
    (Clear σ okCtx h pred).1.items =
      h.items.filter (fun p => !pred p.2.payload) ∧
    List.Perm (Clear σ okCtx h pred).1.ids
      (keys (Clear σ okCtx h pred).1.items) ∧
    (∃ l : ItemList,
      findNoLock g (Clear σ okCtx h pred).1 okCtx (fun _ => true) [] 1 0 =
        .ok l ∧
      List.Perm l.items
        ((h.items.filter (fun p => !pred p.2.payload)).map Prod.snd)) := by
  have hlat : ¬latencyCancels h.latency okCtx = true := by
    rw [latencyCancels_okCtx]
    exact Bool.false_ne_true
  have hidsnd : h.ids.Nodup := hwf.2.symm.nodup hwf.1
  have hclear : Clear σ okCtx h pred =
      (persistData σ (clearLoop σ pred h.ids h).1,
       (clearLoop σ pred h.ids h).2, none) := by
    unfold Clear
    rw [if_neg hlat]
  obtain ⟨hitems, hcount⟩ := clearLoop_spec σ pred h.ids h hidsnd hwf.1 hkc
  have hfilter : eraseIds h.items (matchingIds h.items pred h.ids) =
      h.items.filter (fun p => !pred p.2.payload) := by
    rw [eraseIds_eq_filter (matchingIds h.items pred h.ids) h.items hwf.1]
    apply List.filter_congr
    intro p hp
    have hlk : mapLookup h.items p.1 = some p.2 :=
      mem_mapLookup h.items p.1 p.2 hwf.1 hp
    have hmemids : p.1 ∈ h.ids :=
      hwf.2.mem_iff.mpr (List.mem_map_of_mem Prod.fst hp)
    have hiff : p.1 ∈ matchingIds h.items pred h.ids ↔
        pred p.2.payload = true := by
      unfold matchingIds
      rw [List.mem_filter]
      constructor
      · rintro ⟨_, hcond⟩
        rw [hlk] at hcond
        exact hcond
      · intro hpred
        refine ⟨hmemids, ?_⟩
        rw [hlk]
        exact hpred
      
    cases hpred : pred p.2.payload
    · have hnot : p.1 ∉ matchingIds h.items pred h.ids := by
        rw [hiff, hpred]
        exact Bool.false_ne_true
      simp [hnot]
    · have hyes : p.1 ∈ matchingIds h.items pred h.ids := hiff.mpr hpred
      simp [hyes]
  have hfi : (Clear σ okCtx h pred).1.items =
      h.items.filter (fun p => !pred p.2.payload) := by
    rw [hclear]
    show (clearLoop σ pred h.ids h).1.items = _
    rw [hitems, hfilter]
  have hFnd : (keys (Clear σ okCtx h pred).1.items).Nodup := by
    rw [hclear]
    show (keys (clearLoop σ pred h.ids h).1.items).Nodup
    rw [hitems]
    exact nodup_keys_eraseIds (matchingIds h.items pred h.ids) h.items hwf.1
  have hFperm : List.Perm (Clear σ okCtx h pred).1.ids
      (keys (Clear σ okCtx h pred).1.items) := by
    rw [hclear]
    show List.Perm (σ (clearLoop σ pred h.ids h).1.items)
      (keys (clearLoop σ pred h.ids h).1.items)
    exact hσ _
  have hFwf : WF (Clear σ okCtx h pred).1 := ⟨hFnd, hFperm⟩
  refine ⟨by rw [hclear], by rw [hclear]; exact hcount, hfi, hFperm, ?_⟩
  refine ⟨⟨((matchedOf (Clear σ okCtx h pred).1 (fun _ => true)).length : Int), 1,
    matchedOf (Clear σ okCtx h pred).1 (fun _ => true)⟩, ?_, ?_⟩
  · have hw := findNoLock_whole g (Clear σ okCtx h pred).1 (fun _ => true) [] 0
      (le_refl 0)
    rwa [sortedOf_nil] at hw
  · show List.Perm (matchedOf (Clear σ okCtx h pred).1 (fun _ => true)) _
    have hp1 := matchedOf_true_perm (Clear σ okCtx h pred).1 hFwf
    rw [hfi] at hp1
    exact hp1

/-- Witness for C8: clearing the records whose field `a` is 1 from the
two-record table `h4`. -/
theorem C8_clear_semantics_witness :
    validIter iterA ∧ WF h4 ∧ (∀ p ∈ h4.items, p.2.id = p.1) ∧
    ((Clear iterA okCtx h4 (eqFilter ("a") (some 1))).2.2 = none ∧
    (Clear iterA okCtx h4 (eqFilter ("a") (some 1))).2.1 =
      (matchingIds h4.items (eqFilter ("a") (some 1)) h4.ids).length ∧
    (Clear iterA okCtx h4 (eqFilter ("a") (some 1))).1.items =
      h4.items.filter (fun p => !eqFilter ("a") (some 1) p.2.payload) ∧
    List.Perm (Clear iterA okCtx h4 (eqFilter ("a") (some 1))).1.ids
      (keys (Clear iterA okCtx h4 (eqFilter ("a") (some 1))).1.items) ∧
    (∃ l : ItemList,
      findNoLock gid (Clear iterA okCtx h4 (eqFilter ("a") (some 1))).1 okCtx
        (fun _ => true) [] 1 0 = .ok l ∧
      List.Perm l.items
        ((h4.items.filter
          (fun p => !eqFilter ("a") (some 1) p.2.payload)).map Prod.snd))) :=
  ⟨validIter_iterA, by decide, by decide,
   C8_clear_semantics iterA gid validIter_iterA h4 (by decide) (by decide)
     (eqFilter ("a") (some 1))⟩



/-! ### C9 counterexample -/

/-- C9 counterexample: a `Clear` whose context is cancelled during the
configured latency returns a cancellation error and deletes nothing, but the
unconditional `self.persistData()` at filestore.go:276 still runs: the
durable location is (over)written — here created, `none` to `some` — and the
in-memory order slice is rebuilt from an unordered map iteration (`[1, 2]`
to `[2, 1]`).  So a cancelled operation can mutate both the table and the
durable location. -/
theorem C9_counterexample :
    clrC9 = (⟨1, h9.items, [2, 1], [], some h9.items⟩, 0, some .canceled) ∧
    h9.datafile = none ∧
    h9.ids = [1, 2] ∧
    validIter iterB :=
  ⟨by decide, by decide, by decide, validIter_iterB⟩

end Filestore
